import Mathlib

/-!
Verification development for the gh-api-watch search core (main.go).

The Go program is shallowly embedded: the HTTP layer is replaced by an
oracle (`World`) mapping request URLs to responses, time is modelled in
Unix seconds (`Nat`, with 0 playing the role of Go's zero `time.Time`,
which is minimal on the timeline), and JSON decoding is modelled by the
oracle carrying both the raw body text and its parse result.  Sleeping
(`throttleFrom`) does not affect the data returned by a run, so in the
embedding of `runSearches` the throttle calls are noted by comments and
`throttleFrom` is embedded separately as the pure wait-duration
computation (in nanoseconds) that the Go code passes to `time.Sleep`.
Strings are treated as ASCII character sequences (Go indexes bytes; all
query/header material in scope is ASCII).
-/

namespace GhWatch

/-! ## Go string helpers -/

/-- unicode.IsSpace restricted to ASCII (space, \t, \n, \v, \f, \r), as
used by strings.TrimSpace and strings.Fields. -/
def goIsSpace (c : Char) : Bool :=
  c = ' ' || c = '\t' || c = '\n' || c = '\x0b' || c = '\x0c' || c = '\r'

/-- strings.TrimSpace on a character list. -/
def goTrimSpaceL (s : List Char) : List Char :=
  ((s.dropWhile goIsSpace).reverse.dropWhile goIsSpace).reverse

/-- strings.TrimSpace. -/
def goTrimSpace (s : String) : String :=
  .mk (goTrimSpaceL s.data)

/-- strings.ToLower (ASCII). -/
def goToLower (s : String) : String :=
  .mk (s.data.map Char.toLower)

/-- strings.Fields: split around runs of whitespace, dropping empties.
`cur` is the (reversed) word currently being read. -/
def goFieldsAux : List Char → List Char → List (List Char)
  | [], cur => if cur.isEmpty then [] else [cur.reverse]
  | c :: rest, cur =>
    if goIsSpace c then
      if cur.isEmpty then goFieldsAux rest [] else cur.reverse :: goFieldsAux rest []
    else goFieldsAux rest (c :: cur)

def goFields (s : List Char) : List (List Char) :=
  goFieldsAux s []

/-- Digit run of strconv.Atoi; `none` on a non-digit or on the empty run.
Overflow checking is not modelled (header values in scope are small). -/
def goDigits : List Char → Nat → Option Nat
  | [], acc => some acc
  | c :: t, acc => if c.isDigit then goDigits t (acc * 10 + (c.toNat - 48)) else none

/-- strconv.Atoi / strconv.ParseInt(s, 10, 64): optional sign then a
nonempty digit run; anything else is an error (`none`). -/
def goAtoi (s : String) : Option Int :=
  match s.data with
  | [] => none
  | '+' :: ds => if ds.isEmpty then none else (goDigits ds 0).map Int.ofNat
  | '-' :: ds => if ds.isEmpty then none else (goDigits ds 0).map (fun n => -(Int.ofNat n : Int))
  | ds => (goDigits ds 0).map Int.ofNat

/-- truncate from main.go: keep the first n characters and append an
ellipsis when too long (Go slices bytes; ASCII assumed). -/
def truncate (s : String) (n : Nat) : String :=
  if s.data.length ≤ n then s else .mk (s.data.take n ++ ['…'])

/-- One scan step of strings.ReplaceAll with fuel (fuel ≥ length of the
subject suffices; structural recursion keeps the definition
kernel-evaluable).  A nonempty pattern is replaced at every non-overlapping
leftmost occurrence.  The Go function treats an empty pattern specially
(insertion between characters); it is never called that way here and the
embedding leaves the subject unchanged in that case. -/
def replaceAllAux (pat rep : List Char) : Nat → List Char → List Char
  | 0, s => s
  | fuel + 1, s =>
    match s with
    | [] => []
    | c :: rest =>
      if pat.isEmpty then c :: replaceAllAux pat rep fuel rest
      else if pat.isPrefixOf (c :: rest) then
        rep ++ replaceAllAux pat rep fuel ((c :: rest).drop pat.length)
      else c :: replaceAllAux pat rep fuel rest

/-- strings.ReplaceAll. -/
def replaceAll (s pat rep : List Char) : List Char :=
  replaceAllAux pat rep s.length s

/-! ## URL encoding (net/url) -/

def hexDigit : Nat → Char
  | 0 => '0' | 1 => '1' | 2 => '2' | 3 => '3' | 4 => '4' | 5 => '5' | 6 => '6' | 7 => '7'
  | 8 => '8' | 9 => '9' | 10 => 'A' | 11 => 'B' | 12 => 'C' | 13 => 'D' | 14 => 'E' | _ => 'F'

/-- Characters net/url never escapes (shouldEscape special cases). -/
def urlUnreserved (c : Char) : Bool :=
  c.isAlpha || c.isDigit || c = '-' || c = '_' || c = '.' || c = '~'

/-- One character of url.QueryEscape: unreserved kept, space becomes '+',
everything else percent-encoded with uppercase hex. -/
def encodeQueryChar (c : Char) : List Char :=
  if urlUnreserved c then [c]
  else if c = ' ' then ['+']
  else ['%', hexDigit (c.toNat / 16 % 16), hexDigit (c.toNat % 16)]

/-- url.QueryEscape on a character list. -/
def queryEscapeL (s : List Char) : List Char :=
  s.flatMap encodeQueryChar

/-- url.QueryEscape. -/
def queryEscape (s : String) : String :=
  .mk (queryEscapeL s.data)

/-- One character of url.PathEscape (encodePathSegment mode): unreserved
and the sub-delimiters allowed inside a path segment are kept; '/', ';',
',' and '?' are escaped, as is everything else (space becomes %20). -/
def encodePathChar (c : Char) : List Char :=
  if urlUnreserved c then [c]
  else if c = '$' || c = '&' || c = '+' || c = ':' || c = '=' || c = '@' then [c]
  else ['%', hexDigit (c.toNat / 16 % 16), hexDigit (c.toNat % 16)]

/-- url.PathEscape. -/
def pathEscape (s : String) : String :=
  .mk (s.data.flatMap encodePathChar)

/-- urlQueryEscape from main.go on character lists: strict escaping of the
trimmed query, then a fixed chain of ReplaceAll calls restoring the GitHub
search operator characters. -/
def urlQueryEscapeL (q : List Char) : List Char :=
  let enc := queryEscapeL (goTrimSpaceL q)
  let enc := replaceAll enc ['%', '3', 'A'] [':']
  let enc := replaceAll enc ['%', '3', 'a'] [':']
  let enc := replaceAll enc ['%', '2', '8'] ['(']
  let enc := replaceAll enc ['%', '2', '9'] [')']
  let enc := replaceAll enc ['%', '3', 'E'] ['>']
  let enc := replaceAll enc ['%', '3', 'e'] ['>']
  let enc := replaceAll enc ['%', '3', 'C'] ['<']
  let enc := replaceAll enc ['%', '3', 'c'] ['<']
  let enc := replaceAll enc ['%', '3', 'D'] ['=']
  let enc := replaceAll enc ['%', '3', 'd'] ['=']
  let enc := replaceAll enc ['%', '2', 'C'] [',']
  let enc := replaceAll enc ['%', '2', 'c'] [',']
  let enc := replaceAll enc ['%', '2', 'F'] ['/']
  let enc := replaceAll enc ['%', '2', 'f'] ['/']
  let enc := replaceAll enc ['%', '7', 'C'] ['|']
  let enc := replaceAll enc ['%', '7', 'c'] ['|']
  enc

/-- urlQueryEscape from main.go. -/
def urlQueryEscape (q : String) : String :=
  .mk (urlQueryEscapeL q.data)

/-- Uppercase hex digits plus decimal digits: the escape alphabet
QueryEscape emits. -/
def isUpperHex (c : Char) : Bool :=
  c.isDigit || (c = 'A' || c = 'B' || c = 'C' || c = 'D' || c = 'E' || c = 'F')

/-- Blocks of an escaped string: a single non-percent character, or a
full three-character escape with uppercase-hex digits.  QueryEscape
emits only good blocks and the operator restorations preserve them;
in a concatenation of good blocks, percent signs occur only at block
heads, which pins every occurrence of a pattern "%XY" to a block. -/
def goodBlock : List Char → Bool
  | [c] => c ≠ '%'
  | [p, x, y] => p = '%' && isUpperHex x && isUpperHex y
  | _ => false

/-- One operator restoration of urlQueryEscape viewed blockwise. -/
def restoreStep (pat : List Char) (r : Char) (b : List Char) : List Char :=
  if b = pat then [r] else b

/-- The hex pairs and replacement characters of urlQueryEscape's
ReplaceAll chain, in source order. -/
def opRestoreList : List (Char × Char × Char) :=
  [('3', 'A', ':'), ('3', 'a', ':'), ('2', '8', '('), ('2', '9', ')'),
   ('3', 'E', '>'), ('3', 'e', '>'), ('3', 'C', '<'), ('3', 'c', '<'),
   ('3', 'D', '='), ('3', 'd', '='), ('2', 'C', ','), ('2', 'c', ','),
   ('2', 'F', '/'), ('2', 'f', '/'), ('7', 'C', '|'), ('7', 'c', '|')]

/-- The complete blockwise restoration chain. -/
def restoreOps (b : List Char) : List Char :=
  opRestoreList.foldl (fun b p => restoreStep ['%', p.1, p.2.1] p.2.2 b) b

/-- The operator characters the lenient encoding restores: colon,
parentheses, greater-than, less-than, equals, comma, slash, pipe. -/
def opChar (c : Char) : Bool :=
  c = ':' || c = '(' || c = ')' || c = '>' || c = '<' || c = '=' ||
    c = ',' || c = '/' || c = '|'

/-- Spec-side comparator for the refinement claim about the lenient
encoding: operator characters stay literal and every other character is
encoded exactly as QueryEscape encodes it (hence exactly once). -/
def lenientEncodeChar (c : Char) : List Char :=
  if opChar c then [c] else encodeQueryChar c

/-! ## Query sanitizer (sanitizeCodeQuery and the forkQual regex) -/

/-- RE2 word character ([0-9A-Za-z_]), for the \b assertions. -/
def isWordChar (c : Char) : Bool :=
  c.isAlpha || c.isDigit || c = '_'

/-- RE2 \s ([\t\n\f\r ]). -/
def re2Space (c : Char) : Bool :=
  c = '\t' || c = '\n' || c = '\x0c' || c = '\r' || c = ' '

/-- Strip a case-insensitive literal (given lowercased) from the front. -/
def ciStrip : List Char → List Char → Option (List Char)
  | [], s => some s
  | _ :: _, [] => none
  | t :: ts, c :: cs => if c.toLower = t then ciStrip ts cs else none

/-- Match the forkQual regex \bfork\s*:\s*(true|false|only)\b at the head
of `s`, the leading \b having already been established by the caller;
returns the remainder after the match. -/
def matchForkTail (s : List Char) : Option (List Char) :=
  match ciStrip ['f', 'o', 'r', 'k'] s with
  | none => none
  | some s1 =>
    match s1.dropWhile re2Space with
    | ':' :: s3 =>
      let s4 := s3.dropWhile re2Space
      match (ciStrip ['t', 'r', 'u', 'e'] s4 <|> ciStrip ['f', 'a', 'l', 's', 'e'] s4 <|>
             ciStrip ['o', 'n', 'l', 'y'] s4) with
      | none => none
      | some s5 =>
        match s5 with
        | [] => some []
        | c :: _ => if isWordChar c then none else some s5
    | _ => none

/-- forkQual.ReplaceAllString(q, ""): delete every leftmost non-overlapping
match.  `prevWord` says whether the previous character is a word character
(false at the start of the string); after a match the last matched
character is a word character but the following character is not, so the
scan safely resumes with `prevWord := true`. -/
def stripForkAux : Nat → Bool → List Char → List Char
  | 0, _, s => s
  | _ + 1, _, [] => []
  | fuel + 1, prevWord, c :: rest =>
    if prevWord then c :: stripForkAux fuel (isWordChar c) rest
    else
      match matchForkTail (c :: rest) with
      | some srest => stripForkAux fuel true srest
      | none => c :: stripForkAux fuel (isWordChar c) rest

def stripForkQual (s : List Char) : List Char :=
  stripForkAux s.length false s

/-- sanitizeCodeQuery from main.go: drop fork qualifiers, collapse
whitespace runs (Fields + Join), trim. -/
def sanitizeCodeQuery (q : String) : String :=
  let q1 := stripForkQual q.data
  let q2 := List.intercalate [' '] (goFields q1)
  .mk (goTrimSpaceL q2)

/-! ## Rate governor (throttleFrom) -/

/-- The response headers throttleFrom reads, as raw strings ("" when the
header is absent): X-RateLimit-Remaining, X-RateLimit-Reset, Retry-After,
X-RateLimit-Resource. -/
structure GoHeaders where
  rateRemaining : String := ""
  rateReset : String := ""
  retryAfter : String := ""
  resource : String := ""
deriving DecidableEq, Repr

/-- throttleFrom from main.go as the duration (nanoseconds) handed to
time.Sleep.  `nowNano` is the current Unix time in nanoseconds (the Go
code reads the clock for time.Until and for the jitter). -/
def throttleFrom (status : Nat) (h : GoHeaders) (nowNano : Int) : Int :=
  let resource := goToLower h.resource
  let baseWait : Int := if resource = "search" then 12000000000 else 1500000000
  let rem : Int := (goAtoi h.rateRemaining).getD 0
  -- Honor Retry-After when sent
  let retryBranch : Option Int :=
    if h.retryAfter = "" then none
    else
      match goAtoi (goTrimSpace h.retryAfter) with
      | some secs => if 0 < secs then some (secs * 1000000000 + 500000000) else none
      | none => none
  match retryBranch with
  | some w => w
  | none =>
    -- If rate limited or nearly there, wait until reset (with caps)
    if status = 403 ∨ rem ≤ 2 then
      match goAtoi h.rateReset with
      | some resetUnix =>
        let wait := resetUnix * 1000000000 - nowNano
        if 0 < wait then
          let capWait : Int := if resource ≠ "search" then 300000000000 else 120000000000
          (if capWait < wait then capWait else wait) + 500000000
        else if resource = "search" then 90000000000 else 30000000000
      | none => if resource = "search" then 90000000000 else 30000000000
    else
      -- Normal gentle pacing + jitter (UnixNano mod 2s, in nanoseconds)
      baseWait + nowNano % 2000000000

/-! ## Data model

Timestamps are Unix seconds; 0 stands for Go's zero time.Time (year 1),
which is minimal on the timeline, so time.Time.Before/After become < / >
on Nat and IsZero becomes = 0.  time.Parse results inside response items
are modelled post-parse (an unparseable or absent timestamp is the zero
time, exactly what `t, _ := time.Parse(...)` leaves behind). -/

/-- time.Time.Format(time.RFC3339), abstracted to an injective rendering;
nothing in scope depends on the textual format, only on its injectivity
(it keys oracle URLs). -/
def formatRFC3339 (t : Nat) : String :=
  "ts" ++ toString t ++ "Z"

/-- time.Time.Format("2006-01-02"), abstracted like `formatRFC3339`. -/
def formatDateOnly (t : Nat) : String :=
  "day" ++ toString t

structure AppSettings where
  daysBack : Nat
  openAIModel : String
  maxPages : Nat
  perPage : Nat
  useCommitCheck : Bool
  includeRepoSearch : Bool
  queriesFile : String
deriving DecidableEq, Repr

structure SearchQuery where
  name : String
  type : String
  query : String
  enabled : Bool
deriving DecidableEq, Repr

structure SearchGroup where
  name : String
  enabled : Bool
  searches : List SearchQuery
deriving DecidableEq, Repr

structure QueriesSpec where
  groups : List SearchGroup
deriving DecidableEq, Repr

structure CodeHit where
  group : String := ""
  queryName : String := ""
  repository : String := ""
  repoUrl : String := ""
  filePath : String := ""
  fileUrl : String := ""
  language : String := ""
  repoPushed : Nat := 0
  commitDate : Nat := 0
deriving DecidableEq, Repr

structure RepoHit where
  group : String := ""
  queryName : String := ""
  fullName : String := ""
  htmlUrl : String := ""
  description : String := ""
  pushedAt : Nat := 0
  createdAt : Nat := 0
deriving DecidableEq, Repr

structure Findings where
  runId : String := ""
  sinceISO : String := ""
  daysBack : Nat := 0
  generated : String := ""
  codeHits : List CodeHit := []
  repoHits : List RepoHit := []
  notes : List String := []
deriving DecidableEq, Repr

/-- The zero Findings value returned alongside every error. -/
def emptyFindings : Findings := {}

/-- DebugEvent as runSearches emits it; ts and runId are stamped by the
server's emit closure outside the search core and stay at their zero
values here. -/
structure DebugEvent where
  ts : String := ""
  runId : String := ""
  phase : String := ""
  group : String := ""
  queryName : String := ""
  url : String := ""
  page : Nat := 0
  status : Nat := 0
  rateRemaining : String := ""
  rateReset : String := ""
  note : String := ""
deriving DecidableEq, Repr

/-! ## HTTP oracle -/

structure codeRepo where
  fullName : String := ""
  htmlUrl : String := ""
  language : String := ""
deriving DecidableEq, Repr

structure codeItem where
  path : String := ""
  htmlUrl : String := ""
  repository : codeRepo := {}
deriving DecidableEq, Repr

structure codeSearchResp where
  items : List codeItem := []
deriving DecidableEq, Repr

structure repoItem where
  fullName : String := ""
  htmlUrl : String := ""
  description : String := ""
  pushedAt : Nat := 0
  createdAt : Nat := 0
deriving DecidableEq, Repr

structure repoSearchResp where
  items : List repoItem := []
deriving DecidableEq, Repr

/-- One record of the commits response; only commit.author.date is read. -/
structure commitEntry where
  date : Nat := 0
deriving DecidableEq, Repr

/-- An HTTP response: status, the headers the code reads, the raw body
text (used for diagnostic notes) and the result of json.Unmarshal on it
(`none` = malformed for the expected shape). -/
structure HResp (β : Type) where
  status : Nat
  headers : GoHeaders := {}
  raw : String := ""
  parsed : Option β := none

inductive HFetch (β : Type)
  | err (msg : String)
  | ok (r : HResp β)

/-- The outside world: the clock, context cancellation (indexed by how
many cancellation checks have run), and one oracle per endpoint keyed by
the full request URL. -/
structure World where
  now : Nat
  cancelled : Nat → Bool
  codeFetch : String → HFetch codeSearchResp
  repoFetch : String → HFetch repoSearchResp
  commitFetch : String → HFetch (List commitEntry)

/-- The three terminal errors a run can end with. -/
inductive RunError
  | ctxCanceled
  | transport (msg : String)
  | parse
deriving DecidableEq, Repr

/-! ## Search paginator -/

def codeSearchURL (escapedQ : String) (perPage page : Nat) : String :=
  "https://api.github.com/search/code?q=" ++ escapedQ ++ "&sort=indexed&order=desc&per_page=" ++
    toString perPage ++ "&page=" ++ toString page

def repoSearchURL (escapedQ : String) (perPage page : Nat) : String :=
  "https://api.github.com/search/repositories?q=" ++ escapedQ ++ "&sort=updated&order=desc&per_page=" ++
    toString perPage ++ "&page=" ++ toString page

def commitsURL (ownerRepo path : String) (since : Nat) : String :=
  "https://api.github.com/repos/" ++ ownerRepo ++ "/commits?path=" ++ pathEscape path ++
    "&since=" ++ formatRFC3339 since ++ "&per_page=1"

/-- Mutable state threaded through the run: accumulated hits, notes, the
emitted DebugEvents, and the count of cancellation checks performed. -/
structure SearchState where
  codeHits : List CodeHit := []
  repoHits : List RepoHit := []
  notes : List String := []
  events : List DebugEvent := []
  t : Nat := 0
deriving Repr

def pushEvent (st : SearchState) (ev : DebugEvent) : SearchState :=
  { st with events := st.events ++ [ev] }

def codeHitOf (g : SearchGroup) (q : SearchQuery) (it : codeItem) : CodeHit :=
  { group := g.name, queryName := q.name, repository := it.repository.fullName,
    repoUrl := it.repository.htmlUrl, filePath := it.path, fileUrl := it.htmlUrl,
    language := it.repository.language }

def repoHitOf (g : SearchGroup) (q : SearchQuery) (it : repoItem) : RepoHit :=
  { group := g.name, queryName := q.name, fullName := it.fullName, htmlUrl := it.htmlUrl,
    description := it.description, pushedAt := it.pushedAt, createdAt := it.createdAt }

/-- The note text recorded for a non-200 search response. -/
def non200Note (qName : String) (status : Nat) (rlRem rlRes url raw : String) : String :=
  "(" ++ qName ++ ") status=" ++ toString status ++ " remaining=" ++ rlRem ++ " reset=" ++ rlRes ++
    " url=" ++ url ++ " body=" ++ truncate raw 400

/-- The note text recorded when the strict-encoding retry also fails. -/
def retryStrictNote (qName : String) (status : Nat) (rlRem rlRes strictURL raw : String) : String :=
  "(" ++ qName ++ ") retry strict status=" ++ toString status ++ " remaining=" ++ rlRem ++
    " reset=" ++ rlRes ++ " url=" ++ strictURL ++ " body=" ++ truncate raw 400

/-- The DebugEvent note shown for a non-200 response (annotated with the
planned sleep when rate-limited), from the non-200 branches of
runSearches. -/
def non200EventNote (w : World) (status : Nat) (rlRem rlRes raw : String) : String :=
  let note0 := truncate raw 200
  if status = 403 ∨ rlRem = "0" then
    match goAtoi rlRes with
    | some ru =>
      let ws : Int := ru - (w.now : Int)
      if 0 < ws then "rate-limited; sleeping " ++ toString ws ++ "s; body=" ++ note0 else note0
    | none => note0
  else note0

/-- The code-search page loop of runSearches for one SearchQuery.  The
fuel argument is only a structural-recursion bound: the loop runs while
page ≤ maxPages and each iteration increments page, so maxPages + 1 fuel
is never exhausted.  Errors carry the state (its events were already
emitted) and abort the run; `.ok` returns the state plus foundThisQuery.
The throttleFrom sleeps of the Go code do not change any returned data
and are noted by comments. -/
def codePages (w : World) (g : SearchGroup) (q : SearchQuery) (qName : String)
    (perPage maxPages : Nat) :
    Nat → Nat → Nat → SearchState → Except (SearchState × RunError) (SearchState × Nat)
  | 0, _, found, st => .ok (st, found)
  | fuel + 1, page, found, st =>
    if maxPages < page then .ok (st, found)
    else if w.cancelled st.t then .error ({ st with t := st.t + 1 }, .ctxCanceled)
    else
      let st := { st with t := st.t + 1 }
      let rawQ := sanitizeCodeQuery q.query
      let url := codeSearchURL (urlQueryEscape rawQ) perPage page
      let st := pushEvent st { phase := "search-code", group := g.name, queryName := q.name, url := url, page := page }
      match w.codeFetch url with
      | .err m =>
        let st := pushEvent st { phase := "search-code-error", group := g.name, queryName := q.name, url := url, page := page, note := m }
        .error (st, .transport m)
      | .ok resp =>
        if resp.status ≠ 200 then
          let rlRem := resp.headers.rateRemaining
          let rlRes := resp.headers.rateReset
          let st := pushEvent st { phase := "search-code-non200", group := g.name, queryName := q.name, url := url, page := page, status := resp.status, rateRemaining := rlRem, rateReset := rlRes, note := non200EventNote w resp.status rlRem rlRes resp.raw }
          -- shared tail of the non-200 branch: generic note, throttleFrom(resp), break
          let giveUp : SearchState → Except (SearchState × RunError) (SearchState × Nat) :=
            fun st => .ok ({ st with notes := st.notes ++ [non200Note qName resp.status rlRem rlRes url resp.raw] }, found)
          if resp.status = 422 then
            let strictURL := codeSearchURL (queryEscape (goTrimSpace rawQ)) perPage page
            let st := pushEvent st { phase := "search-code-retry", group := g.name, queryName := q.name, url := strictURL, page := page, note := "retry with QueryEscape due to 422" }
            match w.codeFetch strictURL with
            | .err _ => giveUp st
            | .ok resp2 =>
              if resp2.status = 200 then
                match resp2.parsed with
                | none => .error (st, .parse)
                | some cr2 =>
                  if cr2.items.isEmpty then
                    let st := pushEvent st { phase := "search-code-ok", group := g.name, queryName := q.name, url := strictURL, page := page, status := 200, note := "0 items" }
                    .ok (st, found)
                  else
                    let st := { st with codeHits := st.codeHits ++ cr2.items.map (codeHitOf g q) }
                    let st := pushEvent st { phase := "search-code-ok", group := g.name, queryName := q.name, url := strictURL, page := page, status := 200, note := "items=" ++ toString cr2.items.length }
                    -- throttleFrom(resp2); continue
                    codePages w g q qName perPage maxPages fuel (page + 1) (found + cr2.items.length) st
              else
                let st := { st with notes := st.notes ++ [retryStrictNote qName resp2.status resp2.headers.rateRemaining resp2.headers.rateReset strictURL resp2.raw] }
                let st := pushEvent st { phase := "search-code-retry-failed", group := g.name, queryName := q.name, url := strictURL, page := page, status := resp2.status, rateRemaining := resp2.headers.rateRemaining, rateReset := resp2.headers.rateReset, note := truncate resp2.raw 200 }
                giveUp st
          else giveUp st
        else
          match resp.parsed with
          | none => .error (st, .parse)
          | some cr =>
            if cr.items.isEmpty then
              let st := pushEvent st { phase := "search-code-ok", group := g.name, queryName := q.name, url := url, page := page, status := 200, note := "0 items" }
              .ok (st, found)
            else
              let st := { st with codeHits := st.codeHits ++ cr.items.map (codeHitOf g q) }
              let st := pushEvent st { phase := "search-code-ok", group := g.name, queryName := q.name, url := url, page := page, status := 200, note := "items=" ++ toString cr.items.length }
              -- throttleFrom(resp); continue
              codePages w g q qName perPage maxPages fuel (page + 1) (found + cr.items.length) st

/-- The repository-search page loop of runSearches (no 422 retry; items
whose pushed timestamp precedes `since` are skipped locally). -/
def repoPages (w : World) (g : SearchGroup) (q : SearchQuery) (qName baseQ : String)
    (perPage maxPages since : Nat) :
    Nat → Nat → Nat → SearchState → Except (SearchState × RunError) (SearchState × Nat)
  | 0, _, found, st => .ok (st, found)
  | fuel + 1, page, found, st =>
    if maxPages < page then .ok (st, found)
    else if w.cancelled st.t then .error ({ st with t := st.t + 1 }, .ctxCanceled)
    else
      let st := { st with t := st.t + 1 }
      let url := repoSearchURL (urlQueryEscape baseQ) perPage page
      let st := pushEvent st { phase := "search-repo", group := g.name, queryName := q.name, url := url, page := page }
      match w.repoFetch url with
      | .err m =>
        let st := pushEvent st { phase := "search-repo-error", group := g.name, queryName := q.name, url := url, page := page, note := m }
        .error (st, .transport m)
      | .ok resp =>
        if resp.status ≠ 200 then
          let rlRem := resp.headers.rateRemaining
          let rlRes := resp.headers.rateReset
          let st := { st with notes := st.notes ++ [non200Note qName resp.status rlRem rlRes url resp.raw] }
          let st := pushEvent st { phase := "search-repo-non200", group := g.name, queryName := q.name, url := url, page := page, status := resp.status, rateRemaining := rlRem, rateReset := rlRes, note := non200EventNote w resp.status rlRem rlRes resp.raw }
          -- throttleFrom(resp); break
          .ok (st, found)
        else
          match resp.parsed with
          | none => .error (st, .parse)
          | some rr =>
            if rr.items.isEmpty then
              let st := pushEvent st { phase := "search-repo-ok", group := g.name, queryName := q.name, url := url, page := page, status := 200, note := "0 items" }
              .ok (st, found)
            else
              let kept := rr.items.filter (fun it => ¬ it.pushedAt < since)
              let st := { st with repoHits := st.repoHits ++ kept.map (repoHitOf g q) }
              let st := pushEvent st { phase := "search-repo-ok", group := g.name, queryName := q.name, url := url, page := page, status := 200, note := "items=" ++ toString rr.items.length }
              -- throttleFrom(resp); continue
              repoPages w g q qName baseQ perPage maxPages since fuel (page + 1) (found + kept.length) st

/-- One enabled SearchQuery of runSearches: dispatch on the search kind,
run the page loop, and record the no-hits note when nothing was found. -/
def processQuery (w : World) (cfg : AppSettings) (since : Nat) (g : SearchGroup)
    (q : SearchQuery) (st : SearchState) : Except (SearchState × RunError) SearchState :=
  let qName := g.name ++ " — " ++ q.name
  if goToLower q.type = "code" then
    match codePages w g q qName cfg.perPage cfg.maxPages (cfg.maxPages + 1) 1 0 st with
    | .error e => .error e
    | .ok (st, found) =>
      if found = 0 then
        let st := { st with notes := st.notes ++ ["No code hits returned for " ++ qName] }
        .ok (pushEvent st { phase := "search-code-empty", group := g.name, queryName := q.name, note := "no code hits" })
      else .ok st
  else if goToLower q.type = "repo" then
    if ¬ cfg.includeRepoSearch then .ok st
    else
      -- Automatically add pushed:>= filter for recency window
      let baseQ := q.query ++ " pushed:>=" ++ formatDateOnly since
      match repoPages w g q qName baseQ cfg.perPage cfg.maxPages since (cfg.maxPages + 1) 1 0 st with
      | .error e => .error e
      | .ok (st, found) =>
        if found = 0 then
          let st := { st with notes := st.notes ++ ["No repo hits for " ++ qName] }
          .ok (pushEvent st { phase := "search-repo-empty", group := g.name, queryName := q.name, note := "no repo hits" })
        else .ok st
  else
    let st := { st with notes := st.notes ++ ["Unknown type for " ++ qName ++ ": " ++ q.type] }
    .ok (pushEvent st { phase := "search-unknown", group := g.name, queryName := q.name, note := "unknown search type: " ++ q.type })

def processQueries (w : World) (cfg : AppSettings) (since : Nat) (g : SearchGroup) :
    List SearchQuery → SearchState → Except (SearchState × RunError) SearchState
  | [], st => .ok st
  | q :: qs, st =>
    if ¬ q.enabled then processQueries w cfg since g qs st
    else
      match processQuery w cfg since g q st with
      | .error e => .error e
      | .ok st => processQueries w cfg since g qs st

def processGroups (w : World) (cfg : AppSettings) (since : Nat) :
    List SearchGroup → SearchState → Except (SearchState × RunError) SearchState
  | [], st => .ok st
  | g :: gs, st =>
    if ¬ g.enabled then processGroups w cfg since gs st
    else
      match processQueries w cfg since g g.searches st with
      | .error e => .error e
      | .ok st => processGroups w cfg since gs st

/-! ## Enrichment fan-out (enrichWithCommitDates) -/

/-- The body of one enrichment worker job: fetch the newest commit for the
hit's repository and path since the window start; any error, non-200 or
empty list leaves the derived date at zero.  (The worker also calls
throttleFrom on the response; unobservable here.) -/
def commitDateFor (w : World) (since : Nat) (h : CodeHit) : Nat :=
  match w.commitFetch (commitsURL h.repository h.filePath since) with
  | .err _ => 0
  | .ok resp =>
    if resp.status = 200 then
      match resp.parsed with
      | some (c :: _) => c.date
      | _ => 0
    else 0

/-- The indexed results published on the result channel, in job order:
one (index, derived date) pair per input hit. -/
def enrichJobs (w : World) (since : Nat) : Nat → List CodeHit → List (Nat × Nat)
  | _, [] => []
  | i, h :: hs => (i, commitDateFor w since h) :: enrichJobs w since (i + 1) hs

/-- out[i].CommitDate = d, the write the fan-in loop performs per result. -/
def setCommitDate : List CodeHit → Nat → Nat → List CodeHit
  | [], _, _ => []
  | h :: hs, 0, d => { h with commitDate := d } :: hs
  | h :: hs, i + 1, d => h :: setCommitDate hs i d

/-- The fan-in loop: drain the result channel (in whatever completion
order the workers produced, here an arbitrary list `rs`) into a copy of
the input, writing each result at its original index. -/
def drainResults (base : List CodeHit) (rs : List (Nat × Nat)) : List CodeHit :=
  rs.foldl (fun acc r => setCommitDate acc r.1 r.2) base

/-- enrichWithCommitDates from main.go: every index receives exactly one
result, so the observable output sets each hit's commitDate from its own
lookup; `enrich_drain_eq` below shows `drainResults` yields this for every
completion order. -/
def enrichWithCommitDates (w : World) (since : Nat) (hits : List CodeHit) : List CodeHit :=
  hits.map fun h => { h with commitDate := commitDateFor w since h }

/-! ## Aggregation: dedupe and sort -/

def codeKey (h : CodeHit) : String :=
  h.repository ++ "|" ++ h.filePath ++ "|" ++ h.fileUrl

def dedupeCodeAux (seen : List String) : List CodeHit → List CodeHit
  | [] => []
  | h :: hs =>
    if codeKey h ∈ seen then dedupeCodeAux seen hs
    else h :: dedupeCodeAux (codeKey h :: seen) hs

/-- dedupeCode from main.go (the seen set is modelled as the list of keys
already kept). -/
def dedupeCode (l : List CodeHit) : List CodeHit :=
  dedupeCodeAux [] l

def dedupeRepoAux (seen : List String) : List RepoHit → List RepoHit
  | [] => []
  | h :: hs =>
    if h.fullName ∈ seen then dedupeRepoAux seen hs
    else h :: dedupeRepoAux (h.fullName :: seen) hs

/-- dedupeRepo from main.go. -/
def dedupeRepo (l : List RepoHit) : List RepoHit :=
  dedupeRepoAux [] l

/-- The sort.Slice comparator for CodeHits: descending by derived commit
date, undated (zero) hits after all dated ones, two undated hits equal. -/
def lessCode (a b : CodeHit) : Bool :=
  if a.commitDate = 0 ∧ b.commitDate = 0 then false
  else if a.commitDate = 0 then false
  else if b.commitDate = 0 then true
  else decide (b.commitDate < a.commitDate)

/-- The sort.Slice comparator for RepoHits: descending by pushed time. -/
def lessRepo (a b : RepoHit) : Bool :=
  decide (b.pushedAt < a.pushedAt)

def insertBy (le : α → α → Bool) (a : α) : List α → List α
  | [] => [a]
  | b :: t => if le a b then a :: b :: t else b :: insertBy le a t

/-- Deterministic model of sort.Slice(l, less): an insertion sort with
respect to the non-strict order (fun a b => !less b a).  Go's sort.Slice
promises exactly a permutation ordered by `less` (it is not guaranteed
stable); any correct sort realises that contract. -/
def sortSlice (less : α → α → Bool) : List α → List α
  | [] => []
  | a :: t => insertBy (fun x y => !less y x) a (sortSlice less t)

/-! ## runSearches -/

/-- runSearches from main.go, also exposing the final SearchState (Go
emits the DebugEvents through the emit callback; the state's event list
is that channel).  The second component is the (Findings, error) pair the
Go function returns. -/
def runSearchesSt (w : World) (cfg : AppSettings) (spec : QueriesSpec) :
    SearchState × (Findings × Option RunError) :=
  let since := w.now - cfg.daysBack * 86400
  let sinceISO := formatRFC3339 since
  match processGroups w cfg since spec.groups {} with
  | .error (st, e) => (st, (emptyFindings, some e))
  | .ok st =>
    -- Optional: verify code file recency by hitting commits endpoint
    let stepped :=
      if cfg.useCommitCheck ∧ ¬ st.codeHits.isEmpty then
        let st := pushEvent st { phase := "commit-check", note := "files=" ++ toString st.codeHits.length }
        let enriched := enrichWithCommitDates w since st.codeHits
        -- keep only those with commitDate >= since; drop unverified
        let kept := enriched.filter fun h => ¬ h.commitDate = 0 ∧ ¬ h.commitDate < since
        let st := pushEvent st { phase := "commit-check-done", note := "kept=" ++ toString kept.length }
        ({ st with codeHits := kept }, kept)
      else (st, st.codeHits)
    let st := stepped.1
    let codeHits := stepped.2
    -- Ensure deterministic ordering by recency
    let codeHits := if 1 < codeHits.length then sortSlice lessCode codeHits else codeHits
    let repoHits := if 1 < st.repoHits.length then sortSlice lessRepo st.repoHits else st.repoHits
    (st,
     ({ runId := "", sinceISO := sinceISO, daysBack := cfg.daysBack,
        generated := formatRFC3339 w.now, codeHits := dedupeCode codeHits,
        repoHits := dedupeRepo repoHits, notes := st.notes }, none))

/-- The (Findings, error) pair runSearches returns to its caller. -/
def runSearches (w : World) (cfg : AppSettings) (spec : QueriesSpec) :
    Findings × Option RunError :=
  (runSearchesSt w cfg spec).2

/-! ## Concrete runs used by the scenario claims and the witnesses -/

def qCode : SearchQuery := { name := "Q", type := "code", query := "lang:go", enabled := true }

def gCode : SearchGroup := { name := "G", enabled := true, searches := [qCode] }

def specCode : QueriesSpec := ⟨[gCode]⟩

def qRepo : SearchQuery := { name := "R", type := "repo", query := "alpha", enabled := true }

def gRepo : SearchGroup := { name := "Grp", enabled := true, searches := [qRepo] }

def specRepo : QueriesSpec := ⟨[gRepo]⟩

/-- Base settings of the scenarios: 7-day window, 3-page cap, commit check
off unless a scenario turns it on. -/
def cfgScen : AppSettings :=
  { daysBack := 7, openAIModel := "m", maxPages := 3, perPage := 50,
    useCommitCheck := false, includeRepoSearch := true, queriesFile := "queries.yaml" }

def cfgCC : AppSettings := { cfgScen with useCommitCheck := true }

/-- Scenario clock: since = 1000000 - 7*86400 = 395200. -/
def scenNow : Nat := 1000000

def scenSince : Nat := scenNow - 7 * 86400

/-- The lenient code-search URL the scenarios request for a given page. -/
def lenientURLAt (page : Nat) : String :=
  codeSearchURL (urlQueryEscape (sanitizeCodeQuery qCode.query)) 50 page

/-- The strict-escaped retry URL for a given page. -/
def strictURLAt (page : Nat) : String :=
  codeSearchURL (queryEscape (goTrimSpace (sanitizeCodeQuery qCode.query))) 50 page

def itemA : codeItem :=
  { path := "a.go", htmlUrl := "https://g/o/r/a.go",
    repository := { fullName := "o/r", htmlUrl := "https://g/o/r", language := "Go" } }

def itemB : codeItem :=
  { path := "b.go", htmlUrl := "https://g/o/r/b.go",
    repository := { fullName := "o/r", htmlUrl := "https://g/o/r", language := "Go" } }

def itemC : codeItem :=
  { path := "c.go", htmlUrl := "https://g/o/r/c.go",
    repository := { fullName := "o/r", htmlUrl := "https://g/o/r", language := "Go" } }

/-- Repo item inside the window (pushed at 500000 ≥ since). -/
def itemR1 : repoItem :=
  { fullName := "o/new", htmlUrl := "https://g/o/new", description := "fresh",
    pushedAt := 500000, createdAt := 400000 }

/-- Repo item the server returned although it pre-dates the window. -/
def itemR2 : repoItem :=
  { fullName := "o/old", htmlUrl := "https://g/o/old", description := "stale",
    pushedAt := 100, createdAt := 50 }

/-- A world where every fetch fails; used only to instantiate universals. -/
def wNil : World :=
  { now := scenNow, cancelled := fun _ => false,
    codeFetch := fun _ => .err "unreachable",
    repoFetch := fun _ => .err "unreachable",
    commitFetch := fun _ => .err "unreachable" }

/-- C1 scenario: page 1 succeeds with one item, the context cancellation
fires before the page-2 fetch (second cancellation check). -/
def wCancel : World :=
  { wNil with
    cancelled := fun t => decide (1 ≤ t),
    codeFetch := fun _ => .ok { status := 200, raw := "", parsed := some { items := [itemA] } } }

/-- C5/C10 base: page 1 of the code search answers 422. -/
def resp422 : HResp codeSearchResp := { status := 422, raw := "bad query" }

/-- C5 world (retry failure): the strict retry answers 500. -/
def w422Fail : World :=
  { wNil with
    codeFetch := fun url =>
      if url = lenientURLAt 1 then .ok resp422
      else if url = strictURLAt 1 then .ok { status := 500, raw := "boom" }
      else .err "unexpected" }

/-- C5 world (retry success): the strict retry answers 200 with one item
and the next page closes the search with zero items. -/
def w422Retry : World :=
  { wNil with
    codeFetch := fun url =>
      if url = lenientURLAt 1 then .ok resp422
      else if url = strictURLAt 1 then .ok { status := 200, raw := "", parsed := some { items := [itemA] } }
      else if url = lenientURLAt 2 then .ok { status := 200, raw := "", parsed := some { items := [] } }
      else .err "unexpected" }

/-- C10 world: the strict retry itself fails at the transport level. -/
def w422Transport : World :=
  { wNil with
    codeFetch := fun url =>
      if url = lenientURLAt 1 then .ok resp422
      else if url = strictURLAt 1 then .err "dial tcp: connection refused"
      else .err "unexpected" }

/-- C10 contrast world: the primary page request fails at transport. -/
def wTransport : World :=
  { wNil with codeFetch := fun _ => .err "dial tcp: connection refused" }

/-- Commit-check world: one code page with three hits; the commit lookups
date a.go at 400000 and b.go at 500000 (inside the window) and c.go at
100 (before the window start 395200, so it must be dropped). -/
def wCC : World :=
  { wNil with
    codeFetch := fun url =>
      if url = lenientURLAt 1 then .ok { status := 200, raw := "", parsed := some { items := [itemA, itemB, itemC] } }
      else if url = lenientURLAt 2 then .ok { status := 200, raw := "", parsed := some { items := [] } }
      else .err "unexpected",
    commitFetch := fun url =>
      if url = commitsURL "o/r" "a.go" scenSince then .ok { status := 200, raw := "", parsed := some [⟨400000⟩] }
      else if url = commitsURL "o/r" "b.go" scenSince then .ok { status := 200, raw := "", parsed := some [⟨500000⟩] }
      else if url = commitsURL "o/r" "c.go" scenSince then .ok { status := 200, raw := "", parsed := some [⟨100⟩] }
      else .err "unexpected" }

/-- Repo-search world: the server returns both items (including the stale
one) on page 1 and ends on page 2. -/
def wRepo : World :=
  { wNil with
    repoFetch := fun url =>
      if url = repoSearchURL (urlQueryEscape (qRepo.query ++ " pushed:>=" ++ formatDateOnly scenSince)) 50 1 then
        .ok { status := 200, raw := "", parsed := some { items := [itemR1, itemR2] } }
      else if url = repoSearchURL (urlQueryEscape (qRepo.query ++ " pushed:>=" ++ formatDateOnly scenSince)) 50 2 then
        .ok { status := 200, raw := "", parsed := some { items := [] } }
      else .err "unexpected" }

/-- The same repository returned twice with an older push timestamp, as
page 1 of the wDupRepo run delivers it. -/
def itemDupOld : repoItem :=
  { fullName := "o/r", htmlUrl := "https://g/o/r", description := "old description",
    pushedAt := 500000, createdAt := 400000 }

/-- The same repository returned again on page 2 with a newer push
timestamp and an updated description. -/
def itemDupNew : repoItem :=
  { fullName := "o/r", htmlUrl := "https://g/o/r", description := "new description",
    pushedAt := 600000, createdAt := 400000 }

/-- Duplicate-key repo run: page 1 returns the older duplicate, page 2
the newer one, page 3 ends the search.  Because the pipeline sorts by
pushed time descending before deduplicating, the page-2 (later
insertion) occurrence is the one that survives. -/
def wDupRepo : World :=
  { wNil with
    repoFetch := fun url =>
      if url = repoSearchURL (urlQueryEscape (qRepo.query ++ " pushed:>=" ++ formatDateOnly scenSince)) 50 1 then
        .ok { status := 200, raw := "", parsed := some { items := [itemDupOld] } }
      else if url = repoSearchURL (urlQueryEscape (qRepo.query ++ " pushed:>=" ++ formatDateOnly scenSince)) 50 2 then
        .ok { status := 200, raw := "", parsed := some { items := [itemDupNew] } }
      else if url = repoSearchURL (urlQueryEscape (qRepo.query ++ " pushed:>=" ++ formatDateOnly scenSince)) 50 3 then
        .ok { status := 200, raw := "", parsed := some { items := [] } }
      else .err "unexpected" }

/-- Duplicate-key code hits (same repository/path/file URL, different
group) used by the dedupe witness. -/
def dupA : CodeHit := { group := "g1", repository := "o/r", filePath := "a", fileUrl := "u" }

def dupB : CodeHit := { group := "g2", repository := "o/r", filePath := "a", fileUrl := "u" }

def dupR1 : RepoHit := { group := "g1", fullName := "o/r" }

def dupR2 : RepoHit := { group := "g2", fullName := "o/r" }

/-- The surviving enriched hit for itemA in the wCC run. -/
def hitAcc : CodeHit :=
  { group := "G", queryName := "Q", repository := "o/r", repoUrl := "https://g/o/r",
    filePath := "a.go", fileUrl := "https://g/o/r/a.go", language := "Go", commitDate := 400000 }

/-- The surviving enriched hit for itemB in the wCC run. -/
def hitBcc : CodeHit :=
  { group := "G", queryName := "Q", repository := "o/r", repoUrl := "https://g/o/r",
    filePath := "b.go", fileUrl := "https://g/o/r/b.go", language := "Go", commitDate := 500000 }

/-! ## Lemmas about the aggregation helpers -/

theorem dedupeCodeAux_sublist (seen : List String) (l : List CodeHit) :
    (dedupeCodeAux seen l).Sublist l := by
  induction l generalizing seen with
  | nil => simp [dedupeCodeAux]
  | cons h t ih =>
    simp only [dedupeCodeAux]
    split
    · exact (ih seen).cons h
    · exact (ih (codeKey h :: seen)).cons₂ h

theorem mem_dedupeCodeAux {x : CodeHit} (seen : List String) (l : List CodeHit)
    (hx : x ∈ dedupeCodeAux seen l) :
    codeKey x ∉ seen ∧ l.find? (fun y => codeKey y == codeKey x) = some x := by
  induction l generalizing seen with
  | nil => simp [dedupeCodeAux] at hx
  | cons h t ih =>
    simp only [dedupeCodeAux] at hx
    split at hx
    · rename_i hseen
      obtain ⟨hnot, hfind⟩ := ih seen hx
      have hbe : (codeKey h == codeKey x) = false :=
        beq_eq_false_iff_ne.mpr fun he => hnot (he ▸ hseen)
      exact ⟨hnot, by simp [List.find?, hbe, hfind]⟩
    · rename_i hseen
      rcases List.mem_cons.mp hx with hx | hx
      · subst hx
        exact ⟨hseen, by simp [List.find?]⟩
      · obtain ⟨hnot, hfind⟩ := ih (codeKey h :: seen) hx
        have hbe : (codeKey h == codeKey x) = false :=
          beq_eq_false_iff_ne.mpr fun he => hnot (by simp [he])
        exact ⟨fun hc => hnot (by simp [hc]), by simp [List.find?, hbe, hfind]⟩

theorem dedupeCodeAux_pairwise (seen : List String) (l : List CodeHit) :
    (dedupeCodeAux seen l).Pairwise fun a b => codeKey a ≠ codeKey b := by
  induction l generalizing seen with
  | nil => simp [dedupeCodeAux]
  | cons h t ih =>
    simp only [dedupeCodeAux]
    split
    · exact ih seen
    · refine List.Pairwise.cons (fun b hb he => ?_) (ih (codeKey h :: seen))
      exact (mem_dedupeCodeAux _ _ hb).1 (by simp [he])

theorem dedupeCodeAux_covers {x : CodeHit} (seen : List String) (l : List CodeHit)
    (hx : x ∈ l) (hs : codeKey x ∉ seen) :
    ∃ y ∈ dedupeCodeAux seen l, codeKey y = codeKey x := by
  induction l generalizing seen with
  | nil => simp at hx
  | cons h t ih =>
    simp only [dedupeCodeAux]
    by_cases hk : codeKey h = codeKey x
    · have hnot : codeKey h ∉ seen := hk ▸ hs
      simp only [if_neg hnot]
      exact ⟨h, by simp, hk⟩
    · rcases List.mem_cons.mp hx with hx | hx
      · exact absurd (by rw [hx]) hk
      · have hs' : codeKey x ∉ codeKey h :: seen := by
          intro hc
          rcases List.mem_cons.mp hc with hc | hc
          · exact hk hc.symm
          · exact hs hc
        split
        · exact ih seen hx hs
        · obtain ⟨y, hy, hyk⟩ := ih (codeKey h :: seen) hx hs'
          exact ⟨y, by simp [hy], hyk⟩

theorem dedupeRepoAux_sublist (seen : List String) (l : List RepoHit) :
    (dedupeRepoAux seen l).Sublist l := by
  induction l generalizing seen with
  | nil => simp [dedupeRepoAux]
  | cons h t ih =>
    simp only [dedupeRepoAux]
    split
    · exact (ih seen).cons h
    · exact (ih (h.fullName :: seen)).cons₂ h

theorem mem_dedupeRepoAux {x : RepoHit} (seen : List String) (l : List RepoHit)
    (hx : x ∈ dedupeRepoAux seen l) :
    x.fullName ∉ seen ∧ l.find? (fun y => y.fullName == x.fullName) = some x := by
  induction l generalizing seen with
  | nil => simp [dedupeRepoAux] at hx
  | cons h t ih =>
    simp only [dedupeRepoAux] at hx
    split at hx
    · rename_i hseen
      obtain ⟨hnot, hfind⟩ := ih seen hx
      have hbe : (h.fullName == x.fullName) = false :=
        beq_eq_false_iff_ne.mpr fun he => hnot (he ▸ hseen)
      exact ⟨hnot, by simp [List.find?, hbe, hfind]⟩
    · rename_i hseen
      rcases List.mem_cons.mp hx with hx | hx
      · subst hx
        exact ⟨hseen, by simp [List.find?]⟩
      · obtain ⟨hnot, hfind⟩ := ih (h.fullName :: seen) hx
        have hbe : (h.fullName == x.fullName) = false :=
          beq_eq_false_iff_ne.mpr fun he => hnot (by simp [he])
        exact ⟨fun hc => hnot (by simp [hc]), by simp [List.find?, hbe, hfind]⟩

theorem dedupeRepoAux_pairwise (seen : List String) (l : List RepoHit) :
    (dedupeRepoAux seen l).Pairwise fun a b => a.fullName ≠ b.fullName := by
  induction l generalizing seen with
  | nil => simp [dedupeRepoAux]
  | cons h t ih =>
    simp only [dedupeRepoAux]
    split
    · exact ih seen
    · refine List.Pairwise.cons (fun b hb he => ?_) (ih (h.fullName :: seen))
      exact (mem_dedupeRepoAux _ _ hb).1 (by simp [he])

theorem dedupeRepoAux_covers {x : RepoHit} (seen : List String) (l : List RepoHit)
    (hx : x ∈ l) (hs : x.fullName ∉ seen) :
    ∃ y ∈ dedupeRepoAux seen l, y.fullName = x.fullName := by
  induction l generalizing seen with
  | nil => simp at hx
  | cons h t ih =>
    simp only [dedupeRepoAux]
    by_cases hk : h.fullName = x.fullName
    · have hnot : h.fullName ∉ seen := hk ▸ hs
      simp only [if_neg hnot]
      exact ⟨h, by simp, hk⟩
    · rcases List.mem_cons.mp hx with hx | hx
      · exact absurd (by rw [hx]) hk
      · have hs' : x.fullName ∉ h.fullName :: seen := by
          intro hc
          rcases List.mem_cons.mp hc with hc | hc
          · exact hk hc.symm
          · exact hs hc
        split
        · exact ih seen hx hs
        · obtain ⟨y, hy, hyk⟩ := ih (h.fullName :: seen) hx hs'
          exact ⟨y, by simp [hy], hyk⟩

theorem insertBy_perm (le : α → α → Bool) (a : α) (l : List α) :
    (insertBy le a l).Perm (a :: l) := by
  induction l with
  | nil => simp [insertBy]
  | cons b t ih =>
    simp only [insertBy]
    split
    · exact List.Perm.refl _
    · exact (List.Perm.cons b ih).trans (List.Perm.swap a b t)

theorem sortSlice_perm (less : α → α → Bool) (l : List α) :
    (sortSlice less l).Perm l := by
  induction l with
  | nil => simp [sortSlice]
  | cons a t ih =>
    exact (insertBy_perm _ a (sortSlice less t)).trans (List.Perm.cons a ih)

theorem insertBy_pairwise (le : α → α → Bool)
    (htrans : ∀ x y z, le x y = true → le y z = true → le x z = true)
    (htot : ∀ x y, le x y = true ∨ le y x = true) (a : α) (l : List α)
    (hl : l.Pairwise fun x y => le x y = true) :
    (insertBy le a l).Pairwise fun x y => le x y = true := by
  induction l with
  | nil => simp [insertBy]
  | cons b t ih =>
    simp only [insertBy]
    rcases List.pairwise_cons.mp hl with ⟨hb, ht⟩
    split
    · rename_i hab
      refine List.pairwise_cons.mpr ⟨?_, hl⟩
      intro x hx
      rcases List.mem_cons.mp hx with hx | hx
      · exact hx ▸ hab
      · exact htrans a b x hab (hb x hx)
    · rename_i hab
      have hba : le b a = true := by
        rcases htot a b with h | h
        · exact absurd h hab
        · exact h
      refine List.pairwise_cons.mpr ⟨?_, ih ht⟩
      intro x hx
      rcases List.mem_cons.mp ((insertBy_perm le a t).mem_iff.mp hx) with hx | hx
      · exact hx ▸ hba
      · exact hb x hx

theorem sortSlice_pairwise (less : α → α → Bool)
    (htrans : ∀ x y z, (!less y x) = true → (!less z y) = true → (!less z x) = true)
    (htot : ∀ x y, (!less y x) = true ∨ (!less x y) = true) (l : List α) :
    (sortSlice less l).Pairwise fun x y => (!less y x) = true := by
  induction l with
  | nil => simp [sortSlice]
  | cons a t ih =>
    exact insertBy_pairwise _ (fun x y z hxy hyz => htrans x y z hxy hyz)
      (fun x y => htot x y) a _ ih

/-- Totality of the non-strict order induced by lessCode. -/
theorem lessCode_total (x y : CodeHit) : (!lessCode y x) = true ∨ (!lessCode x y) = true := by
  simp only [lessCode, Bool.not_eq_true']
  by_cases hx : x.commitDate = 0 <;> by_cases hy : y.commitDate = 0 <;>
    simp [hx, hy] <;> omega

/-- Transitivity of the non-strict order induced by lessCode. -/
theorem lessCode_trans (x y z : CodeHit) (hxy : (!lessCode y x) = true)
    (hyz : (!lessCode z y) = true) : (!lessCode z x) = true := by
  simp only [lessCode, Bool.not_eq_true'] at hxy hyz ⊢
  by_cases hx : x.commitDate = 0 <;> by_cases hy : y.commitDate = 0 <;>
    by_cases hz : z.commitDate = 0 <;> simp_all <;> omega

theorem lessRepo_total (x y : RepoHit) : (!lessRepo y x) = true ∨ (!lessRepo x y) = true := by
  simp only [lessRepo, Bool.not_eq_true']
  simp only [decide_eq_false_iff_not, not_lt]
  omega

theorem lessRepo_trans (x y z : RepoHit) (hxy : (!lessRepo y x) = true)
    (hyz : (!lessRepo z y) = true) : (!lessRepo z x) = true := by
  simp only [lessRepo, Bool.not_eq_true', decide_eq_false_iff_not, not_lt] at hxy hyz ⊢
  omega

/-- A list of length at most 1 is vacuously pairwise. -/
theorem pairwise_of_short {R : α → α → Prop} (l : List α) (h : ¬ 1 < l.length) :
    l.Pairwise R := by
  match l with
  | [] => exact List.Pairwise.nil
  | [a] => exact List.pairwise_singleton R a
  | a :: b :: t => simp at h

/-- The non-strict order induced by lessCode implies the sortedness shape
claimed of the final CodeHit sequence. -/
theorem lessCode_nonstrict {a b : CodeHit} (h : (!lessCode b a) = true) :
    (a.commitDate ≠ 0 → b.commitDate ≠ 0 → b.commitDate ≤ a.commitDate) ∧
    (a.commitDate = 0 → b.commitDate = 0) := by
  simp only [lessCode, Bool.not_eq_true'] at h
  by_cases ha : a.commitDate = 0 <;> by_cases hb : b.commitDate = 0 <;>
    simp_all <;> omega

@[simp] theorem pushEvent_codeHits (st : SearchState) (ev : DebugEvent) :
    (pushEvent st ev).codeHits = st.codeHits := rfl

@[simp] theorem pushEvent_repoHits (st : SearchState) (ev : DebugEvent) :
    (pushEvent st ev).repoHits = st.repoHits := rfl

@[simp] theorem pushEvent_notes (st : SearchState) (ev : DebugEvent) :
    (pushEvent st ev).notes = st.notes := rfl

@[simp] theorem pushEvent_t (st : SearchState) (ev : DebugEvent) :
    (pushEvent st ev).t = st.t := rfl

/-- The code-search page loop never touches the RepoHit accumulator. -/
theorem codePages_ok_repoHits (w : World) (g : SearchGroup) (q : SearchQuery) (qName : String)
    (perPage maxPages : Nat) :
    ∀ fuel page found st st' found',
      codePages w g q qName perPage maxPages fuel page found st = .ok (st', found') →
      st'.repoHits = st.repoHits := by
  intro fuel
  induction fuel with
  | zero =>
    intro page found st st' found' h
    simp only [codePages] at h
    cases h
    rfl
  | succ fuel ih =>
    intro page found st st' found' h
    simp only [codePages] at h
    repeat' split at h
    all_goals
      first
        | exact Except.noConfusion h
        | (cases h; simp [pushEvent])
        | (have h2 := ih _ _ _ _ _ h
           simpa [pushEvent] using h2)

/-- Every RepoHit the repo page loop appends respects the window start
(the local pushed-timestamp filter). -/
theorem repoPages_ok_window (w : World) (g : SearchGroup) (q : SearchQuery)
    (qName baseQ : String) (perPage maxPages since : Nat) :
    ∀ fuel page found st st' found',
      repoPages w g q qName baseQ perPage maxPages since fuel page found st = .ok (st', found') →
      (∀ x ∈ st.repoHits, ¬ x.pushedAt < since) →
      ∀ x ∈ st'.repoHits, ¬ x.pushedAt < since := by
  intro fuel
  induction fuel with
  | zero =>
    intro page found st st' found' h hinv
    simp only [repoPages] at h
    cases h
    exact hinv
  | succ fuel ih =>
    intro page found st st' found' h hinv
    simp only [repoPages] at h
    repeat' split at h
    all_goals
      first
        | exact Except.noConfusion h
        | (cases h; simpa [pushEvent] using hinv)
        | (refine ih _ _ _ _ _ h ?_
           intro x hx
           simp only [pushEvent] at hx
           rcases List.mem_append.mp hx with hx | hx
           · exact hinv x hx
           · obtain ⟨it, hit, rfl⟩ := List.mem_map.mp hx
             have hd := (List.mem_filter.mp hit).2
             simpa [repoHitOf] using of_decide_eq_true hd)

/-- processQuery preserves the window invariant on accumulated
RepoHits. -/
theorem processQuery_window (w : World) (cfg : AppSettings) (since : Nat)
    (g : SearchGroup) (q : SearchQuery) (st st' : SearchState)
    (h : processQuery w cfg since g q st = .ok st')
    (hinv : ∀ x ∈ st.repoHits, ¬ x.pushedAt < since) :
    ∀ x ∈ st'.repoHits, ¬ x.pushedAt < since := by
  simp only [processQuery] at h
  split at h
  · -- code search
    split at h
    · exact Except.noConfusion h
    · rename_i st2 found2 hE
      have h2 := codePages_ok_repoHits w g q _ cfg.perPage cfg.maxPages _ _ _ _ _ _ hE
      split at h
      all_goals
        cases h
        intro x hx
        refine hinv x ?_
        rw [← h2]
        exact hx
  · split at h
    · -- repo search
      split at h
      · -- repo search disabled: untouched state
        cases h
        exact hinv
      · split at h
        · exact Except.noConfusion h
        · rename_i st2 found2 hE
          have h2 := repoPages_ok_window w g q _ _ cfg.perPage cfg.maxPages since _ _ _ _ _ _ hE hinv
          split at h
          all_goals
            cases h
            intro x hx
            exact h2 x hx
    · -- unknown search kind: only a note is added
      cases h
      intro x hx
      exact hinv x hx

theorem processQueries_window (w : World) (cfg : AppSettings) (since : Nat) (g : SearchGroup) :
    ∀ qs st st', processQueries w cfg since g qs st = .ok st' →
      (∀ x ∈ st.repoHits, ¬ x.pushedAt < since) →
      ∀ x ∈ st'.repoHits, ¬ x.pushedAt < since := by
  intro qs
  induction qs with
  | nil =>
    intro st st' h hinv
    simp only [processQueries] at h
    cases h
    exact hinv
  | cons q qs ih =>
    intro st st' h hinv
    simp only [processQueries] at h
    split at h
    · exact ih st st' h hinv
    · split at h
      · exact Except.noConfusion h
      · rename_i st2 hE
        exact ih _ _ h (processQuery_window w cfg since g q st st2 hE hinv)

theorem processGroups_window (w : World) (cfg : AppSettings) (since : Nat) :
    ∀ gs st st', processGroups w cfg since gs st = .ok st' →
      (∀ x ∈ st.repoHits, ¬ x.pushedAt < since) →
      ∀ x ∈ st'.repoHits, ¬ x.pushedAt < since := by
  intro gs
  induction gs with
  | nil =>
    intro st st' h hinv
    simp only [processGroups] at h
    cases h
    exact hinv
  | cons g gs ih =>
    intro st st' h hinv
    simp only [processGroups] at h
    split at h
    · exact ih st st' h hinv
    · split at h
      · exact Except.noConfusion h
      · rename_i st2 hE
        exact ih _ _ h (processQueries_window w cfg since g g.searches st st2 hE hinv)

/-- Membership in the deduplicated, conditionally sorted final CodeHit
sequence comes from the pre-sort list. -/
theorem mem_final_code {h : CodeHit} {X : List CodeHit}
    (hm : h ∈ dedupeCode (if 1 < X.length then sortSlice lessCode X else X)) : h ∈ X := by
  have hs := (dedupeCodeAux_sublist [] _).subset hm
  split at hs
  · exact ((sortSlice_perm _ _).mem_iff).mp hs
  · exact hs

/-- Membership in the deduplicated, conditionally sorted final RepoHit
sequence comes from the pre-sort list. -/
theorem mem_final_repo {h : RepoHit} {X : List RepoHit}
    (hm : h ∈ dedupeRepo (if 1 < X.length then sortSlice lessRepo X else X)) : h ∈ X := by
  have hs := (dedupeRepoAux_sublist [] _).subset hm
  split at hs
  · exact ((sortSlice_perm _ _).mem_iff).mp hs
  · exact hs

/-! ## Claim theorems -/

/-- C2 counterexample: deduplication runs after sorting, so the claimed
"first occurrence in the original insertion (group-then-query-then-page)
order is the one kept" is false of the program.  In the wDupRepo run the
pre-sort accumulation (insertion order) is [older occurrence, newer
occurrence] of the same full name, yet the returned Findings keeps the
newer-pushed page-2 occurrence — the second in insertion order — and the
insertion-order-first occurrence (observably different: older pushed
time and old description) is gone. -/
theorem dedupe_insertion_order_counterexample :
    (runSearchesSt wDupRepo cfgScen specRepo).1.repoHits =
      [repoHitOf gRepo qRepo itemDupOld, repoHitOf gRepo qRepo itemDupNew] ∧
    (runSearches wDupRepo cfgScen specRepo).1.repoHits =
      [repoHitOf gRepo qRepo itemDupNew] ∧
    repoHitOf gRepo qRepo itemDupOld ≠ repoHitOf gRepo qRepo itemDupNew ∧
    (repoHitOf gRepo qRepo itemDupOld).fullName =
      (repoHitOf gRepo qRepo itemDupNew).fullName ∧
    repoHitOf gRepo qRepo itemDupOld ∉ (runSearches wDupRepo cfgScen specRepo).1.repoHits := by
  decide

/-- C2 (amended): the Aggregator deduplicates CodeHits by the composite
key (repository, file path, file URL) and RepoHits by full name, so in
the Findings returned by any run the CodeHit keys and RepoHit full names
are pairwise distinct; the dedupe itself keeps exactly the first
occurrence of each key in its own input order (Sublist, find?
characterization, every key covered) — but since it runs on the
already-sorted sequence, the survivor of a duplicate group is its first
occurrence in sorted order, not necessarily in the original insertion
order (see the counterexample). -/
theorem dedupe_first_occurrence_unique (l : List CodeHit) (r : List RepoHit)
    (w : World) (cfg : AppSettings) (spec : QueriesSpec) :
    ((dedupeCode l).Pairwise fun a b => codeKey a ≠ codeKey b) ∧
    (dedupeCode l).Sublist l ∧
    (∀ h ∈ dedupeCode l, l.find? (fun y => codeKey y == codeKey h) = some h) ∧
    (∀ h ∈ l, ∃ h2 ∈ dedupeCode l, codeKey h2 = codeKey h) ∧
    ((dedupeRepo r).Pairwise fun a b => a.fullName ≠ b.fullName) ∧
    (dedupeRepo r).Sublist r ∧
    (∀ h ∈ dedupeRepo r, r.find? (fun y => y.fullName == h.fullName) = some h) ∧
    (∀ h ∈ r, ∃ h2 ∈ dedupeRepo r, h2.fullName = h.fullName) ∧
    ((runSearches w cfg spec).1.codeHits.Pairwise fun a b => codeKey a ≠ codeKey b) ∧
    ((runSearches w cfg spec).1.repoHits.Pairwise fun a b => a.fullName ≠ b.fullName) := by
  refine ⟨dedupeCodeAux_pairwise [] l, dedupeCodeAux_sublist [] l,
    fun h hm => (mem_dedupeCodeAux [] l hm).2,
    fun h hm => dedupeCodeAux_covers [] l hm (by simp),
    dedupeRepoAux_pairwise [] r, dedupeRepoAux_sublist [] r,
    fun h hm => (mem_dedupeRepoAux [] r hm).2,
    fun h hm => dedupeRepoAux_covers [] r hm (by simp), ?_, ?_⟩
  · simp only [runSearches, runSearchesSt]
    cases hpg : processGroups w cfg (w.now - cfg.daysBack * 86400) spec.groups {} with
    | error e => exact List.Pairwise.nil
    | ok st => exact dedupeCodeAux_pairwise [] _
  · simp only [runSearches, runSearchesSt]
    cases hpg : processGroups w cfg (w.now - cfg.daysBack * 86400) spec.groups {} with
    | error e => exact List.Pairwise.nil
    | ok st => exact dedupeRepoAux_pairwise [] _

/-- Witness for C2 at a concrete duplicate pair: the first occurrence is
the one found and every key survives. -/
theorem dedupe_first_occurrence_unique_witness :
    List.find? (fun y => codeKey y == codeKey dupA) [dupA, dupB] = some dupA ∧
    (∃ h2 ∈ dedupeCode [dupA, dupB], codeKey h2 = codeKey dupB) ∧
    List.find? (fun y => y.fullName == dupR1.fullName) [dupR1, dupR2] = some dupR1 := by
  have h := dedupe_first_occurrence_unique [dupA, dupB] [dupR1, dupR2] wNil cfgScen specCode
  exact ⟨h.2.2.1 dupA (by decide), h.2.2.2.1 dupB (by decide),
    h.2.2.2.2.2.2.1 dupR1 (by decide)⟩

/-- C3: in the final Findings the CodeHit sequence is sorted by derived
commit date descending: dated pairs are non-increasing, undated (zero)
hits never precede dated ones, and the comparator treats two undated hits
as equal (neither precedes the other). -/
theorem codeHits_sorted_desc (w : World) (cfg : AppSettings) (spec : QueriesSpec) :
    ((runSearches w cfg spec).1.codeHits.Pairwise fun a b =>
      (a.commitDate ≠ 0 → b.commitDate ≠ 0 → b.commitDate ≤ a.commitDate) ∧
      (a.commitDate = 0 → b.commitDate = 0)) ∧
    (∀ a b : CodeHit, a.commitDate = 0 → b.commitDate = 0 →
      lessCode a b = false ∧ lessCode b a = false) := by
  constructor
  · simp only [runSearches, runSearchesSt]
    cases hpg : processGroups w cfg (w.now - cfg.daysBack * 86400) spec.groups {} with
    | error e => exact List.Pairwise.nil
    | ok st =>
      refine List.Pairwise.sublist (dedupeCodeAux_sublist [] _) ?_
      split <;> split <;>
        first
          | exact List.Pairwise.imp (fun hab => lessCode_nonstrict hab)
              (sortSlice_pairwise lessCode lessCode_trans lessCode_total _)
          | (rename_i hshort
             exact pairwise_of_short _ hshort)
  · intro a b ha hb
    constructor <;> simp [lessCode, ha, hb]

/-- Witness for C3: the wCC run sorts the two surviving dated hits in
descending date order, and two undated hits compare equal. -/
theorem codeHits_sorted_desc_witness :
    hitAcc.commitDate ≤ hitBcc.commitDate ∧ lessCode dupA dupB = false := by
  have h := codeHits_sorted_desc wCC cfgCC specCode
  have hl : (runSearches wCC cfgCC specCode).1.codeHits = [hitBcc, hitAcc] := by decide
  have hp := hl ▸ h.1
  exact ⟨((List.pairwise_cons.mp hp).1 hitAcc (by simp)).1 (by decide) (by decide),
    (h.2 dupA dupB (by decide) (by decide)).1⟩

/-- C1: the search phase is all-or-nothing: whenever runSearches returns
an error (transport, cancellation or parse), the Findings value it
returns is the empty zero value, and in the concrete 3-page-capped
scenario where cancellation fires before the page-2 fetch, the run
returns exactly the cancellation error with no Findings. -/
theorem runSearches_all_or_nothing (w : World) (cfg : AppSettings) (spec : QueriesSpec)
    (e : RunError) (he : (runSearches w cfg spec).2 = some e) :
    (runSearches w cfg spec).1 = emptyFindings ∧
    runSearches wCancel cfgScen specCode = (emptyFindings, some .ctxCanceled) := by
  refine ⟨?_, by decide⟩
  revert he
  simp only [runSearches, runSearchesSt]
  cases hpg : processGroups w cfg (w.now - cfg.daysBack * 86400) spec.groups {} with
  | error p => intro _; rfl
  | ok st => intro he; simp at he

/-- Witness for C1 at the cancellation scenario. -/
theorem runSearches_all_or_nothing_witness :
    (runSearches wCancel cfgScen specCode).1 = emptyFindings ∧
    runSearches wCancel cfgScen specCode = (emptyFindings, some .ctxCanceled) :=
  runSearches_all_or_nothing wCancel cfgScen specCode .ctxCanceled (by decide)

/-- C7: when the commit-check phase runs, every CodeHit surviving into
the final Findings has a set (nonzero) derived commit date no older than
the window start; in the concrete wCC run the hit whose lookup dates it
before the window (c.go at 100 < 395200) is dropped entirely. -/
theorem commitCheck_filter (w : World) (cfg : AppSettings) (spec : QueriesSpec)
    (hcc : cfg.useCommitCheck = true) :
    (∀ h ∈ (runSearches w cfg spec).1.codeHits,
      h.commitDate ≠ 0 ∧ ¬ h.commitDate < w.now - cfg.daysBack * 86400) ∧
    (runSearches wCC cfgCC specCode).1.codeHits = [hitBcc, hitAcc] := by
  refine ⟨?_, by decide⟩
  intro h hm
  cases hpg : processGroups w cfg (w.now - cfg.daysBack * 86400) spec.groups {} with
  | error p =>
    simp only [runSearches, runSearchesSt, hpg] at hm
    simp [emptyFindings] at hm
  | ok st =>
    simp only [runSearches, runSearchesSt, hpg] at hm
    have hm2 := mem_final_code hm
    split at hm2
    · have hp := (List.mem_filter.mp hm2).2
      exact of_decide_eq_true hp
    · rename_i hcond
      rw [hcc] at hcond
      have : st.codeHits.isEmpty = true := by
        by_contra hne
        exact hcond ⟨rfl, by simpa using hne⟩
      rw [List.isEmpty_iff.mp this] at hm2
      simp at hm2

/-- Witness for C7 at the wCC run: hitBcc survives with a dated commit
inside the window. -/
theorem commitCheck_filter_witness :
    hitBcc.commitDate ≠ 0 ∧ ¬ hitBcc.commitDate < wCC.now - cfgCC.daysBack * 86400 := by
  have h := commitCheck_filter wCC cfgCC specCode (by decide)
  exact h.1 hitBcc (by rw [h.2]; simp)

/-- C6: every RepoHit retained by a run has a pushed timestamp at or
after the window start (the local filter double-checks the server-side
pushed-since qualifier); in the concrete wRepo run the item the server
returned with a pre-window pushed timestamp is excluded. -/
theorem repoHits_window (w : World) (cfg : AppSettings) (spec : QueriesSpec)
    (h : RepoHit) (hm : h ∈ (runSearches w cfg spec).1.repoHits) :
    (¬ h.pushedAt < w.now - cfg.daysBack * 86400) ∧
    (runSearches wRepo cfgScen specRepo).1.repoHits = [repoHitOf gRepo qRepo itemR1] := by
  refine ⟨?_, by decide⟩
  cases hpg : processGroups w cfg (w.now - cfg.daysBack * 86400) spec.groups {} with
  | error p =>
    simp only [runSearches, runSearchesSt, hpg] at hm
    simp [emptyFindings] at hm
  | ok st =>
    simp only [runSearches, runSearchesSt, hpg] at hm
    have hm2 := mem_final_repo hm
    have hm3 : h ∈ st.repoHits := by
      split at hm2
      · exact hm2
      · exact hm2
    exact processGroups_window w cfg _ spec.groups {} st hpg (by simp) h hm3

/-- Witness for C6: the retained hit of the wRepo run respects the
window start. -/
theorem repoHits_window_witness :
    ¬ (repoHitOf gRepo qRepo itemR1).pushedAt < wRepo.now - cfgScen.daysBack * 86400 :=
  (repoHits_window wRepo cfgScen specRepo (repoHitOf gRepo qRepo itemR1) (by decide)).1

/-- C4: the Rate Governor's pause (nanoseconds): a positive Retry-After
value r always forces a wait of at least r seconds, whatever the status
and the other headers; and with Retry-After absent, remaining-quota 0 and
a reset 30 seconds in the future on the search resource class, the wait
is between 30 and 120 seconds. -/
theorem throttleFrom_bounds (status : Nat) (h : GoHeaders) (nowNano : Int) :
    (∀ r : Int, h.retryAfter ≠ "" → goAtoi (goTrimSpace h.retryAfter) = some r → 0 < r →
      r * 1000000000 ≤ throttleFrom status h nowNano) ∧
    (∀ resetUnix : Int, h.retryAfter = "" → goAtoi h.rateRemaining = some 0 →
      goToLower h.resource = "search" → goAtoi h.rateReset = some resetUnix →
      resetUnix * 1000000000 - nowNano = 30000000000 →
      30000000000 ≤ throttleFrom status h nowNano ∧
        throttleFrom status h nowNano ≤ 120000000000) := by
  constructor
  · intro r hne hparse hpos
    simp only [throttleFrom, if_neg hne, hparse, if_pos hpos]
    omega
  · intro resetUnix hra hrem hres hreset hwait
    simp only [throttleFrom, hra, hrem, hres, hreset, hwait]
    norm_num

/-- Witness for C4: Retry-After 5 forces at least 5 seconds; a 30-second
reset with exhausted quota on the search class waits 30.5 seconds. -/
theorem throttleFrom_bounds_witness :
    (5 : Int) * 1000000000 ≤
      throttleFrom 200 { rateRemaining := "10", rateReset := "", retryAfter := "5", resource := "search" } 0 ∧
    (30000000000 ≤
      throttleFrom 200 { rateRemaining := "0", rateReset := "1730000030", retryAfter := "", resource := "search" } 1730000000000000000 ∧
     throttleFrom 200 { rateRemaining := "0", rateReset := "1730000030", retryAfter := "", resource := "search" } 1730000000000000000 ≤ 120000000000) :=
  ⟨(throttleFrom_bounds 200 { rateRemaining := "10", rateReset := "", retryAfter := "5", resource := "search" } 0).1
      5 (by decide) (by decide) (by decide),
   (throttleFrom_bounds 200 { rateRemaining := "0", rateReset := "1730000030", retryAfter := "", resource := "search" } 1730000000000000000).2
      1730000030 (by decide) (by decide) (by decide) (by decide) (by decide)⟩

/-! ### C8 machinery: draining the result channel in any completion order -/

theorem setCommitDate_comm (l : List CodeHit) (i j a b : Nat) (hij : i ≠ j) :
    setCommitDate (setCommitDate l i a) j b = setCommitDate (setCommitDate l j b) i a := by
  induction l generalizing i j with
  | nil => simp [setCommitDate]
  | cons h t ih =>
    match i, j with
    | 0, 0 => exact absurd rfl hij
    | 0, j + 1 => simp [setCommitDate]
    | i + 1, 0 => simp [setCommitDate]
    | i + 1, j + 1 =>
      simp only [setCommitDate, List.cons.injEq, true_and]
      exact ih i j fun hc => hij (by rw [hc])

theorem drainResults_cons (base : List CodeHit) (p : Nat × Nat) (rs : List (Nat × Nat)) :
    drainResults base (p :: rs) = drainResults (setCommitDate base p.1 p.2) rs := rfl

/-- Indices published by the job feeder are pairwise distinct. -/
theorem enrichJobs_fst_ge (w : World) (since : Nat) :
    ∀ l i p, p ∈ enrichJobs w since i l → i ≤ p.1 := by
  intro l
  induction l with
  | nil => intro i p hp; simp [enrichJobs] at hp
  | cons h t ih =>
    intro i p hp
    simp only [enrichJobs] at hp
    rcases List.mem_cons.mp hp with hp | hp
    · simp [hp]
    · exact le_of_lt (lt_of_lt_of_le (Nat.lt_succ_self i) (ih (i + 1) p hp))

theorem enrichJobs_pairwise (w : World) (since : Nat) :
    ∀ l i, (enrichJobs w since i l).Pairwise fun p q => p.1 ≠ q.1 := by
  intro l
  induction l with
  | nil => intro i; simp [enrichJobs]
  | cons h t ih =>
    intro i
    simp only [enrichJobs]
    refine List.Pairwise.cons (fun q hq => ?_) (ih (i + 1))
    have := enrichJobs_fst_ge w since t (i + 1) q hq
    simp only
    omega

/-- Draining is invariant under permuting the results, as long as their
indices are pairwise distinct (single-writer-per-slot). -/
theorem drainResults_perm (base : List CodeHit) (rs rs' : List (Nat × Nat))
    (hperm : rs.Perm rs') (hp : rs.Pairwise fun p q => p.1 ≠ q.1) :
    drainResults base rs = drainResults base rs' := by
  induction hperm generalizing base with
  | nil => rfl
  | cons x h ih =>
    rw [drainResults_cons, drainResults_cons]
    exact ih _ (List.pairwise_cons.mp hp).2
  | swap x y t =>
    rw [drainResults_cons, drainResults_cons, drainResults_cons, drainResults_cons]
    have hxy : y.1 ≠ x.1 := (List.pairwise_cons.mp hp).1 x (by simp)
    rw [setCommitDate_comm base y.1 x.1 y.2 x.2 hxy]
  | trans h1 h2 ih1 ih2 =>
    rw [ih1 base hp]
    exact ih2 base ((h1.pairwise_iff fun hne => Ne.symm hne).mp hp)

theorem setCommitDate_append (pre : List CodeHit) (h : CodeHit) (t : List CodeHit) (d : Nat) :
    setCommitDate (pre ++ h :: t) pre.length d = pre ++ ({ h with commitDate := d } :: t) := by
  induction pre with
  | nil => simp [setCommitDate]
  | cons p ps ih => simpa [setCommitDate] using ih

/-- Draining the canonical (job-order) results writes each hit's own
derived date: the fan-in equals the per-hit map. -/
theorem drain_canonical (w : World) (since : Nat) :
    ∀ (suf pre : List CodeHit),
      drainResults (pre ++ suf) (enrichJobs w since pre.length suf) =
        pre ++ enrichWithCommitDates w since suf := by
  intro suf
  induction suf with
  | nil => intro pre; simp [drainResults, enrichJobs, enrichWithCommitDates]
  | cons h t ih =>
    intro pre
    rw [enrichJobs, drainResults_cons]
    rw [show setCommitDate (pre ++ h :: t) pre.length (commitDateFor w since h) =
          pre ++ ({ h with commitDate := commitDateFor w since h } :: t) from
        setCommitDate_append pre h t _]
    have h2 := ih (pre ++ [{ h with commitDate := commitDateFor w since h }])
    rw [List.append_assoc] at h2
    simp only [List.singleton_append, List.length_append, List.length_cons,
      List.length_nil] at h2
    rw [show pre.length + (0 + 1) = pre.length + 1 from by omega] at h2
    rw [h2]
    simp [enrichWithCommitDates, List.append_assoc]

/-- C8: draining the W-worker fan-out's indexed results in any completion
order produces an output of the input's length whose i-th element is the
i-th input hit with only its derived commit date (possibly) changed. -/
theorem enrich_positional (w : World) (since : Nat) (hits : List CodeHit)
    (rs : List (Nat × Nat)) (hperm : rs.Perm (enrichJobs w since 0 hits)) :
    (drainResults hits rs).length = hits.length ∧
    drainResults hits rs = enrichWithCommitDates w since hits ∧
    ∀ i h, hits.get? i = some h →
      (drainResults hits rs).get? i =
        some { h with commitDate := commitDateFor w since h } := by
  have heq : drainResults hits rs = enrichWithCommitDates w since hits := by
    rw [drainResults_perm hits rs (enrichJobs w since 0 hits) hperm
      ((hperm.pairwise_iff fun hne => Ne.symm hne).mpr (enrichJobs_pairwise w since hits 0))]
    have h0 := drain_canonical w since hits []
    simpa using h0
  refine ⟨?_, heq, ?_⟩
  · rw [heq]; simp [enrichWithCommitDates]
  · intro i h hi
    rw [heq]
    unfold enrichWithCommitDates
    rw [List.get?_map, hi]
    rfl

/-- Witness for C8: a two-job batch drained in reversed completion order
still maps position 0 to the first input hit with its own lookup date. -/
theorem enrich_positional_witness :
    (drainResults [codeHitOf gCode qCode itemA, codeHitOf gCode qCode itemB]
        [(1, 500000), (0, 400000)]).get? 0 =
      some { codeHitOf gCode qCode itemA with
              commitDate := commitDateFor wCC scenSince (codeHitOf gCode qCode itemA) } :=
  (enrich_positional wCC scenSince [codeHitOf gCode qCode itemA, codeHitOf gCode qCode itemB]
    [(1, 500000), (0, 400000)] (by decide)).2.2 0 (codeHitOf gCode qCode itemA) (by decide)

/-- C5 counterexample: in the concrete 422-then-failed-retry run, three
notes are recorded for the query (the strict-retry failure note, the
generic non-200 note, and the closing no-code-hits note), not exactly
two; no item is added and the run still ends without an error. -/
theorem retry422_two_notes_counterexample :
    (runSearches w422Fail cfgScen specCode).1.notes =
      ["(G — Q) retry strict status=500 remaining= reset= url=https://api.github.com/search/code?q=lang%3Ago&sort=indexed&order=desc&per_page=50&page=1 body=boom",
       "(G — Q) status=422 remaining= reset= url=https://api.github.com/search/code?q=lang:go&sort=indexed&order=desc&per_page=50&page=1 body=bad query",
       "No code hits returned for G — Q"] ∧
    (runSearches w422Fail cfgScen specCode).1.notes.length = 3 ∧
    ¬ (runSearches w422Fail cfgScen specCode).1.notes.length = 2 ∧
    (runSearches w422Fail cfgScen specCode).1.codeHits = [] ∧
    (runSearches w422Fail cfgScen specCode).2 = none := by
  decide

/-- C5 amended: a 422 page is retried exactly once with strict encoding;
a 200 retry with one item puts that item in the final CodeHits and
pagination resumes (page 2 is requested next); a failed retry adds no
item, records the two failure notes before the query is abandoned (the
no-hits note follows after abandonment), and the run continues without a
run-level error. -/
theorem retry422_amended :
    (runSearches w422Retry cfgScen specCode).1.codeHits = [codeHitOf gCode qCode itemA] ∧
    (runSearches w422Retry cfgScen specCode).2 = none ∧
    ((runSearchesSt w422Retry cfgScen specCode).1.events.filter
        (fun e => e.phase == "search-code")).map (fun e => e.page) = [1, 2] ∧
    ((runSearchesSt w422Retry cfgScen specCode).1.events.filter
        (fun e => e.phase == "search-code-retry")).length = 1 ∧
    (runSearches w422Fail cfgScen specCode).1.codeHits = [] ∧
    (runSearches w422Fail cfgScen specCode).2 = none ∧
    ((runSearchesSt w422Fail cfgScen specCode).1.events.filter
        (fun e => e.phase == "search-code-retry")).length = 1 := by
  decide

/-- C10: a transport failure on the strict-encoding retry request does
not abort the run (unlike wTransport, where the primary page request's
transport failure aborts it with the transport error): the query is
abandoned with exactly the generic non-200 note recorded for it before
abandonment (only the no-hits note follows), no error, and the retry was
attempted exactly once. -/
theorem retry422_transport_absorbed :
    (runSearches w422Transport cfgScen specCode).2 = none ∧
    (runSearches w422Transport cfgScen specCode).1.codeHits = [] ∧
    (runSearches w422Transport cfgScen specCode).1.notes =
      ["(G — Q) status=422 remaining= reset= url=https://api.github.com/search/code?q=lang:go&sort=indexed&order=desc&per_page=50&page=1 body=bad query",
       "No code hits returned for G — Q"] ∧
    ((runSearchesSt w422Transport cfgScen specCode).1.events.filter
        (fun e => e.phase == "search-code-retry")).length = 1 ∧
    runSearches wTransport cfgScen specCode =
      (emptyFindings, some (.transport "dial tcp: connection refused")) := by
  decide

/-! ### C9 machinery: the lenient encoding is character-wise -/

theorem isUpperHex_hexDigit (n : Nat) : isUpperHex (hexDigit n) = true := by
  match n with
  | 0 | 1 | 2 | 3 | 4 | 5 | 6 | 7 | 8 | 9 | 10 | 11 | 12 | 13 | 14 => rfl
  | n + 15 => rfl

theorem isUpperHex_ne_percent {c : Char} (h : isUpperHex c = true) : c ≠ '%' := by
  intro hc
  rw [hc] at h
  exact absurd h (by decide)

theorem char_eq_of_toNat {c d : Char} (h : c.toNat = d.toNat) : c = d := by
  apply Char.ext
  apply UInt32.eq_of_val_eq
  exact Fin.eq_of_val_eq h

theorem hexDigit_inj (n : Nat) (hn : n < 16) (m : Nat) (hm : m < 16)
    (h : hexDigit n = hexDigit m) : n = m := by
  interval_cases n <;> interval_cases m <;> revert h <;> decide

/-- Decoding a percent pair: matching both hex digits pins the byte. -/
theorem encodeHex_pat {c : Char} (a b : Nat) (ha : a < 16) (hb : b < 16)
    (h1 : hexDigit (c.toNat / 16 % 16) = hexDigit a)
    (h2 : hexDigit (c.toNat % 16) = hexDigit b) :
    c.toNat % 256 = 16 * a + b := by
  have e1 := hexDigit_inj _ (Nat.mod_lt _ (by norm_num)) _ ha h1
  have e2 := hexDigit_inj _ (Nat.mod_lt _ (by norm_num)) _ hb h2
  omega

/-- One scan step over a non-percent head character: no pattern can
start there. -/
theorem replaceAllAux_step_nonpercent {X Y r c : Char} (rest : List Char) (f : Nat)
    (hc : c ≠ '%') :
    replaceAllAux ['%', X, Y] [r] (f + 1) (c :: rest) =
      c :: replaceAllAux ['%', X, Y] [r] f rest := by
  have hpre : List.isPrefixOf ['%', X, Y] (c :: rest) = false := by
    simp [List.isPrefixOf]
    intro h
    exact absurd h.symm hc
  simp [replaceAllAux, hpre]

/-- One scan step where the pattern matches at the head. -/
theorem replaceAllAux_step_match (X Y r : Char) (rest : List Char) (f : Nat) :
    replaceAllAux ['%', X, Y] [r] (f + 1) ('%' :: X :: Y :: rest) =
      r :: replaceAllAux ['%', X, Y] [r] f rest := by
  simp [replaceAllAux, List.isPrefixOf]

/-- One scan step where the head is a percent escape other than the
pattern. -/
theorem replaceAllAux_step_nomatch {X Y r x y : Char} (rest : List Char) (f : Nat)
    (hne : ¬ (x = X ∧ y = Y)) :
    replaceAllAux ['%', X, Y] [r] (f + 1) ('%' :: x :: y :: rest) =
      '%' :: replaceAllAux ['%', X, Y] [r] f (x :: y :: rest) := by
  have hpre : List.isPrefixOf ['%', X, Y] ('%' :: x :: y :: rest) = false := by
    simp [List.isPrefixOf]
    intro h1 h2
    exact absurd ⟨h1.symm, h2.symm⟩ hne
  simp [replaceAllAux, hpre]

/-- The core single-pattern lemma: on a concatenation of good blocks,
ReplaceAll of a pattern "%XY" by a single non-percent character acts
blockwise. -/
theorem replaceAllAux_blocks (X Y r : Char) (hr : r ≠ '%') :
    ∀ (blocks : List (List Char)) (fuel : Nat),
      (∀ b ∈ blocks, goodBlock b = true) →
      blocks.flatten.length ≤ fuel →
      replaceAllAux ['%', X, Y] [r] fuel blocks.flatten =
        (blocks.map (restoreStep ['%', X, Y] r)).flatten := by
  intro blocks
  induction blocks with
  | nil =>
    intro fuel _ _
    cases fuel <;> simp [replaceAllAux]
  | cons b bs ih =>
    intro fuel hgood hfuel
    have hb := hgood b (by simp)
    have hbs : ∀ x ∈ bs, goodBlock x = true := fun x hx => hgood x (by simp [hx])
    match b, hb with
    | [], hb => simp [goodBlock] at hb
    | [c], hb =>
      have hc : c ≠ '%' := by simpa [goodBlock] using hb
      simp only [List.flatten_cons, List.singleton_append, List.length_cons] at hfuel ⊢
      obtain ⟨f, rfl⟩ : ∃ f, fuel = f + 1 := ⟨fuel - 1, by omega⟩
      rw [replaceAllAux_step_nonpercent bs.flatten f hc]
      rw [ih f hbs (by omega)]
      have hne1 : ¬ ([c] : List Char) = ['%', X, Y] := by simp
      simp [restoreStep, hne1]
    | [c1, c2], hb => simp [goodBlock] at hb
    | [p, x, y], hb =>
      have hps : (p = '%' ∧ isUpperHex x = true) ∧ isUpperHex y = true := by
        simpa [goodBlock, Bool.and_eq_true] using hb
      obtain ⟨⟨rfl, hx⟩, hy⟩ := hps
      have hxp := isUpperHex_ne_percent hx
      have hyp := isUpperHex_ne_percent hy
      simp only [List.flatten_cons, List.cons_append, List.nil_append,
        List.length_cons] at hfuel ⊢
      by_cases hbp : x = X ∧ y = Y
      · obtain ⟨rfl, rfl⟩ := hbp
        obtain ⟨f, rfl⟩ : ∃ f, fuel = f + 1 := ⟨fuel - 1, by omega⟩
        rw [replaceAllAux_step_match]
        rw [ih f hbs (by omega)]
        simp [restoreStep]
      · obtain ⟨f, rfl⟩ : ∃ f, fuel = f + 3 := ⟨fuel - 3, by omega⟩
        rw [replaceAllAux_step_nomatch _ _ hbp,
          replaceAllAux_step_nonpercent _ _ hxp,
          replaceAllAux_step_nonpercent _ _ hyp]
        rw [ih f hbs (by omega)]
        have hne3 : ¬ ('%' :: x :: y :: ([] : List Char)) = ['%', X, Y] := by
          simp only [List.cons.injEq, and_true, true_and]
          exact fun hcc => hbp hcc
        simp [restoreStep, hne3]
    | c1 :: c2 :: c3 :: c4 :: rest, hb => simp [goodBlock] at hb

/-- The whole restoration chain acts blockwise on good blocks. -/
theorem fold_restore_blocks :
    ∀ (ps : List (Char × Char × Char)),
      (∀ p ∈ ps, p.2.2 ≠ '%') →
      ∀ (blocks : List (List Char)),
        (∀ b ∈ blocks, goodBlock b = true) →
        ps.foldl (fun s p => replaceAll s ['%', p.1, p.2.1] [p.2.2]) blocks.flatten =
          (blocks.map fun b =>
            ps.foldl (fun b p => restoreStep ['%', p.1, p.2.1] p.2.2 b) b).flatten := by
  intro ps
  induction ps with
  | nil =>
    intro _ blocks _
    simp
  | cons p ps ih =>
    intro hp blocks hgood
    simp only [List.foldl_cons]
    rw [show replaceAll blocks.flatten ['%', p.1, p.2.1] [p.2.2] =
          (blocks.map (restoreStep ['%', p.1, p.2.1] p.2.2)).flatten from
        replaceAllAux_blocks p.1 p.2.1 p.2.2 (hp p (by simp)) blocks _ hgood le_rfl]
    rw [ih (fun q hq => hp q (by simp [hq])) _ ?_]
    · rw [List.map_map]
      rfl
    · intro b hb
      obtain ⟨b0, hb0, rfl⟩ := List.mem_map.mp hb
      unfold restoreStep
      split
      · simpa [goodBlock] using hp p (by simp)
      · exact hgood b0 hb0

/-- QueryEscape emits only good blocks (for ASCII input). -/
theorem goodBlock_encodeQueryChar {c : Char} :
    goodBlock (encodeQueryChar c) = true := by
  unfold encodeQueryChar
  split
  · rename_i hun
    simp only [goodBlock, decide_eq_true_eq]
    intro hcp
    rw [hcp] at hun
    exact absurd hun (by decide)
  · split
    · decide
    · simp [goodBlock, isUpperHex_hexDigit]

/-- A percent block whose digit pair matches none of the restoration
patterns passes through the whole chain unchanged. -/
theorem restoreOps_block (dh dl : Char)
    (hA : ¬ (dh = '3' ∧ dl = 'A')) (h28 : ¬ (dh = '2' ∧ dl = '8'))
    (h29 : ¬ (dh = '2' ∧ dl = '9')) (h3E : ¬ (dh = '3' ∧ dl = 'E'))
    (h3C : ¬ (dh = '3' ∧ dl = 'C')) (h3D : ¬ (dh = '3' ∧ dl = 'D'))
    (h2C : ¬ (dh = '2' ∧ dl = 'C')) (h2F : ¬ (dh = '2' ∧ dl = 'F'))
    (h7C : ¬ (dh = '7' ∧ dl = 'C'))
    (ha : dl ≠ 'a') (hcl : dl ≠ 'c') (hd : dl ≠ 'd') (he : dl ≠ 'e') (hf : dl ≠ 'f') :
    restoreOps ['%', dh, dl] = ['%', dh, dl] := by
  simp [restoreOps, opRestoreList, restoreStep, hA, h28, h29, h3E, h3C, h3D, h2C, h2F, h7C,
    ha, hcl, hd, he, hf]

/-- Character-wise action of the restoration chain on one encoded
character: operator characters come back literal, everything else is
untouched. -/
theorem restoreOps_encodeQueryChar (c : Char) (hc : c.toNat < 128) :
    restoreOps (encodeQueryChar c) = lenientEncodeChar c := by
  by_cases hop : opChar c = true
  · simp only [opChar, Bool.or_eq_true, decide_eq_true_eq] at hop
    rcases hop with ((((((((rfl | rfl) | rfl) | rfl) | rfl) | rfl) | rfl) | rfl) | rfl) <;>
      decide
  · have hop' : opChar c = false := by simpa using hop
    simp only [lenientEncodeChar, hop', Bool.false_eq_true, if_false]
    unfold encodeQueryChar
    split
    · simp [restoreOps, opRestoreList, restoreStep]
    · split
      · simp [restoreOps, opRestoreList, restoreStep]
      · have hbyte : c.toNat % 256 = c.toNat := Nat.mod_eq_of_lt (by omega)
        have hxc : ∀ (a b : Nat) (t : Char), a < 16 → b < 16 → 16 * a + b = t.toNat →
            opChar t = true → ¬ (hexDigit (c.toNat / 16 % 16) = hexDigit a ∧
              hexDigit (c.toNat % 16) = hexDigit b) := by
          rintro a b t ha hb htn hto ⟨h1, h2⟩
          have he := encodeHex_pat a b ha hb h1 h2
          rw [hbyte] at he
          have hct : c = t := char_eq_of_toNat (by omega)
          rw [hct] at hop'
          rw [hop'] at hto
          exact absurd hto (by decide)
        have hupper := isUpperHex_hexDigit (c.toNat % 16)
        have hlow : ∀ d : Char, isUpperHex d = false → hexDigit (c.toNat % 16) ≠ d := by
          intro d hd h
          rw [h] at hupper
          rw [hupper] at hd
          exact absurd hd (by decide)
        exact restoreOps_block (hexDigit (c.toNat / 16 % 16)) (hexDigit (c.toNat % 16))
          (hxc 3 10 ':' (by norm_num) (by norm_num) (by decide) (by decide))
          (hxc 2 8 '(' (by norm_num) (by norm_num) (by decide) (by decide))
          (hxc 2 9 ')' (by norm_num) (by norm_num) (by decide) (by decide))
          (hxc 3 14 '>' (by norm_num) (by norm_num) (by decide) (by decide))
          (hxc 3 12 '<' (by norm_num) (by norm_num) (by decide) (by decide))
          (hxc 3 13 '=' (by norm_num) (by norm_num) (by decide) (by decide))
          (hxc 2 12 ',' (by norm_num) (by norm_num) (by decide) (by decide))
          (hxc 2 15 '/' (by norm_num) (by norm_num) (by decide) (by decide))
          (hxc 7 12 '|' (by norm_num) (by norm_num) (by decide) (by decide))
          (hlow 'a' (by decide)) (hlow 'c' (by decide)) (hlow 'd' (by decide))
          (hlow 'e' (by decide)) (hlow 'f' (by decide))

set_option maxHeartbeats 4000000 in
/-- The claim's concrete query survives sanitization plus lenient
encoding with the operator characters literally intact. -/
theorem sanitize_roundtrip_concrete :
    urlQueryEscape (sanitizeCodeQuery "language:python (alpha) pushed:>=2024-01-01, beta") =
      "language:python+(alpha)+pushed:>=2024-01-01,+beta" := by
  decide

/-- restoreOps_encodeQueryChar with the restoration chain spelled as the
foldl that fold_restore_blocks produces. -/
theorem restoreFold_encodeQueryChar (c : Char) (hc : c.toNat < 128) :
    List.foldl (fun b p => restoreStep ['%', p.1, p.2.1] p.2.2 b) (encodeQueryChar c)
      opRestoreList = lenientEncodeChar c :=
  restoreOps_encodeQueryChar c hc

/-- C9: the lenient URL encoding is character-wise on (trimmed) ASCII
queries: it percent-encodes every character except that the operator
characters colon, parentheses, greater-than, less-than, equals, comma,
slash and pipe stay literal, and no character is encoded twice; the
claim's concrete query survives sanitization plus encoding with those
characters literally intact. -/
theorem urlQueryEscape_lenient (q : List Char) (hq : ∀ c ∈ q, c.toNat < 128) :
    urlQueryEscapeL q = (goTrimSpaceL q).flatMap lenientEncodeChar ∧
    urlQueryEscape (sanitizeCodeQuery "language:python (alpha) pushed:>=2024-01-01, beta") =
      "language:python+(alpha)+pushed:>=2024-01-01,+beta" := by
  refine ⟨?_, sanitize_roundtrip_concrete⟩
  have hmem : ∀ c ∈ goTrimSpaceL q, c.toNat < 128 := by
    intro c hcmem
    apply hq
    unfold goTrimSpaceL at hcmem
    have h2 := List.mem_reverse.mp hcmem
    have h3 := (List.dropWhile_sublist _).subset h2
    have h4 := List.mem_reverse.mp h3
    exact (List.dropWhile_sublist _).subset h4
  have h0 : urlQueryEscapeL q =
      opRestoreList.foldl (fun s p => replaceAll s ['%', p.1, p.2.1] [p.2.2])
        (queryEscapeL (goTrimSpaceL q)) := by
    simp only [urlQueryEscapeL, opRestoreList, List.foldl_cons, List.foldl_nil]
  rw [h0]
  have h1 : queryEscapeL (goTrimSpaceL q) =
      ((goTrimSpaceL q).map encodeQueryChar).flatten := rfl
  rw [h1]
  rw [fold_restore_blocks opRestoreList (by decide) _ ?good]
  case good =>
    intro b hb
    obtain ⟨c, hcm, rfl⟩ := List.mem_map.mp hb
    exact goodBlock_encodeQueryChar
  have hmap : ∀ l : List Char, (∀ c ∈ l, c.toNat < 128) →
      List.map
        (fun b => List.foldl (fun b p => restoreStep ['%', p.1, p.2.1] p.2.2 b) b opRestoreList)
        (List.map encodeQueryChar l) = List.map lenientEncodeChar l := by
    intro l
    induction l with
    | nil => intro _; rfl
    | cons c t ih =>
      intro hl
      simp only [List.map_cons]
      rw [restoreFold_encodeQueryChar c (hl c (by simp))]
      rw [ih fun x hx => hl x (by simp [hx])]
  rw [hmap (goTrimSpaceL q) hmem]
  rfl

/-- Witness for C9 on a concrete ASCII query. -/
theorem urlQueryEscape_lenient_witness :
    urlQueryEscapeL ("lang:go (x)".data) =
      (goTrimSpaceL ("lang:go (x)".data)).flatMap lenientEncodeChar :=
  (urlQueryEscape_lenient ("lang:go (x)".data) (by decide)).1

end GhWatch
